import Mathlib

/-!
Verification of the EVRP GVNS core (lutilipe/TCC, directory src/EVRP).

Shallow embedding conventions:
* Python floats are modelled as rationals (ℚ); all arithmetic in the source on
  distances, costs, times, battery levels and loads is ordinary +, -, *, /.
* Python dicts keyed by node id are modelled as association lists; Python sets
  of objective tuples are modelled as lists with membership tests.
* The distance and time matrices (Dict[int, Dict[int, float]]) are modelled as
  total functions ℤ → ℤ → ℚ: create_instance.py builds them complete over all
  node ids, so a KeyError is outside the model.
* In-place mutation (Route/Solution metric fields, list.extend) is modelled by
  returning the updated value; GVNS.update_archive additionally returns the
  post-call state of the caller's archive list to capture its list.extend side
  effect.
* A Python exception (ZeroDivisionError from energy_to_charge / tech.power when
  tech.power == 0) is modelled by an Option-valued evaluator returning none.
* enum NodeType and the Node/Customer/Station/Depot class hierarchy are
  flattened into one structure: demand and service_time are meaningful for
  customers, technologies for stations and depots, exactly the fields the
  evaluator reads for each node type.
-/

/-- classes/technology.py: Technology(id, power, cost_per_kwh). -/
structure Technology where
  id : ℤ
  power : ℚ
  cost_per_kwh : ℚ
  deriving DecidableEq

/-- classes/node.py: NodeType enum. -/
inductive NodeType where
  | DEPOT
  | CUSTOMER
  | STATION
  deriving DecidableEq

/-- classes/node.py plus the Customer/Station/Depot subclasses, flattened. -/
structure Node where
  id : ℤ
  type : NodeType
  x : ℚ
  y : ℚ
  demand : ℚ
  service_time : ℚ
  technologies : List Technology
  deriving DecidableEq

/-- classes/vehicle.py: the four fields an initialized Vehicle carries. -/
structure Vehicle where
  capacity : ℚ
  battery_capacity : ℚ
  consumption_rate : ℚ
  max_range : ℚ
  deriving DecidableEq

/-- classes/vehicle.py, Vehicle.init: max_range is derived as
battery_capacity / consumption_rate.  (Python float division; the model is
faithful for consumption_rate ≠ 0, where no ZeroDivisionError occurs.) -/
def Vehicle.init (capacity battery_capacity consumption_rate : ℚ) : Vehicle :=
  { capacity := capacity
    battery_capacity := battery_capacity
    consumption_rate := consumption_rate
    max_range := battery_capacity / consumption_rate }

/-- classes/instance.py: the Instance fields read by the evaluators and the
engine.  The matrices are total functions (see the header); the instance has a
battery_depreciation_cost field (set in Instance.init), and it never has a
vehicle_cost_per_route attribute anywhere in the repository, so the
hasattr-guarded branch of solution.py line 157 is dead and not modelled. -/
structure Instance where
  nodes : List Node
  vehicle : Vehicle
  num_vehicles : ℕ
  distance_matrix : ℤ → ℤ → ℚ
  time_matrix : ℤ → ℤ → ℚ
  technologies : List Technology
  max_route_duration : ℚ
  charging_fixed_time : ℚ
  battery_depreciation_cost : ℚ

/-- classes/route.py: Route.  charging_decisions is Dict[int, (Technology,
float)], modelled as an association list with unique keys (first match wins,
as a dict lookup). -/
structure Route where
  nodes : List Node
  charging_decisions : List (ℤ × Technology × ℚ)
  total_distance : ℚ
  total_cost : ℚ
  total_time : ℚ
  is_feasible : Bool
  deriving DecidableEq

/-- solution.py: Solution.  The self.instance reference is passed explicitly
to the evaluator in the model, so that Solutions themselves stay decidable. -/
structure Solution where
  routes : List Route
  total_distance : ℚ
  total_cost : ℚ
  num_vehicles_used : ℕ
  is_feasible : Bool
  deriving DecidableEq

instance : Inhabited Solution :=
  ⟨{ routes := [], total_distance := 0, total_cost := 0,
     num_vehicles_used := 0, is_feasible := true }⟩

/-- classes/route.py lines 95-109: Route.dominates, 2-objective Pareto
dominance on (total_distance, total_cost). -/
def Route.dominates (self new_route : Route) : Bool :=
  if self.total_distance ≤ new_route.total_distance ∧
      self.total_cost ≤ new_route.total_cost then
    if self.total_distance < new_route.total_distance ∨
        self.total_cost < new_route.total_cost then
      true
    else
      false
  else
    false

/-- Modelled from the spec: Solution.dominates is called by
GVNS.is_non_dominated (GVNS.py line 76) and relocate.py line 295, but no
definition of it exists anywhere under src/; the spec defines Pareto dominance
for archive solutions as the 2-objective dominance on
(total_distance, total_cost) — A dominates B iff A is no worse in every
objective and strictly better in at least one — the same formula as
Route.dominates. -/
def Solution.dominates (self other : Solution) : Bool :=
  if self.total_distance ≤ other.total_distance ∧
      self.total_cost ≤ other.total_cost then
    if self.total_distance < other.total_distance ∨
        self.total_cost < other.total_cost then
      true
    else
      false
  else
    false

/-- GVNS.py lines 81-86: get_solution_hash, the (total_distance, total_cost)
fingerprint used for duplicate suppression. -/
def get_solution_hash (solution : Solution) : ℚ × ℚ :=
  (solution.total_distance, solution.total_cost)

/-- GVNS.py lines 69-78: is_non_dominated.  With the modelled
Solution.dominates, a solution is non-dominated iff no feasible archive member
dominates it. -/
def is_non_dominated (solution : Solution) (archive : List Solution) : Bool :=
  archive.all fun archived_sol =>
    !(archived_sol.is_feasible && archived_sol.dominates solution)

/-!  The feasibility evaluator (classes/route.py lines 16-93 and solution.py
lines 47-158).  Both walk the route from the first depot accumulating
battery, load and elapsed time; the walk is factored into a step function and
a loop so that the simulation can be replayed. -/

/-- The accumulator of the evaluation walk: current battery / load / time,
the partially accumulated total_distance and total_cost, and the previous
node id. -/
structure EvalState where
  battery : ℚ
  load : ℚ
  time : ℚ
  dist : ℚ
  cost : ℚ
  prev : ℤ
  deriving DecidableEq

/-- Outcome of one step (or of the whole walk): continue with a new state,
stop with the route marked infeasible (carrying the partially accumulated
total_distance and total_cost at the early return), or raise
ZeroDivisionError (tech.power == 0). -/
inductive StepRes where
  | ok (s : EvalState)
  | infeasible (dist cost : ℚ)
  | err
  deriving DecidableEq

/-- Lookup in the charging_decisions dict (modelled as an association list). -/
def lookupDecision : List (ℤ × Technology × ℚ) → ℤ → Option (Technology × ℚ)
  | [], _ => none
  | (k, td) :: rest, i => if k = i then some td else lookupDecision rest i

/-- One iteration of the loop of Route.evaluate (route.py lines 44-87). -/
def routeStep (inst : Instance) (cds : List (ℤ × Technology × ℚ))
    (s : EvalState) (node : Node) : StepRes :=
  let travel_dist := inst.distance_matrix s.prev node.id
  let travel_time := inst.time_matrix s.prev node.id
  let energy_consumed := travel_dist * inst.vehicle.consumption_rate
  if s.battery < energy_consumed then
    .infeasible s.dist s.cost
  else
    let battery := s.battery - energy_consumed
    let time := s.time + travel_time
    let dist := s.dist + travel_dist
    if node.type = NodeType.CUSTOMER then
      let load := s.load + node.demand
      let time := time + node.service_time
      if load > inst.vehicle.capacity then
        .infeasible dist s.cost
      else
        .ok { battery := battery, load := load, time := time, dist := dist,
              cost := s.cost, prev := node.id }
    else
      match lookupDecision cds node.id with
      | none =>
        .ok { battery := battery, load := s.load, time := time, dist := dist,
              cost := s.cost, prev := node.id }
      | some (tech, energy_to_charge) =>
        let tech_found := node.technologies.any fun t => decide (t.id = tech.id)
        if tech_found = false then
          .infeasible dist s.cost
        else if tech.power = 0 then
          .err
        else
          let charging_time := energy_to_charge / tech.power
          let time := time + inst.charging_fixed_time + charging_time
          let battery := min (battery + energy_to_charge) inst.vehicle.battery_capacity
          let cost := s.cost + energy_to_charge * tech.cost_per_kwh
              + inst.battery_depreciation_cost
          .ok { battery := battery, load := s.load, time := time, dist := dist,
                cost := cost, prev := node.id }

/-- The loop of Route.evaluate over nodes[1:]. -/
def routeLoop (inst : Instance) (cds : List (ℤ × Technology × ℚ)) :
    EvalState → List Node → StepRes
  | s, [] => .ok s
  | s, node :: rest =>
    match routeStep inst cds s node with
    | .ok s1 => routeLoop inst cds s1 rest
    | r => r

/-- route.py / solution.py: next((n.id for n in instance.nodes if n.type ==
NodeType.DEPOT), None). -/
def findDepotId (inst : Instance) : Option ℤ :=
  (inst.nodes.find? fun n => decide (n.type = NodeType.DEPOT)).map Node.id

/-- classes/route.py lines 16-93: Route.evaluate.  Returns none when the
Python code would raise ZeroDivisionError; otherwise returns the route with
its metric fields and feasibility flag overwritten exactly as the source
mutates them (on an early infeasible return inside the loop, total_distance
and total_cost keep the partial sums accumulated so far and total_time keeps
its reset value 0, since the source assigns total_time only after the loop). -/
def Route.evaluate (r : Route) (inst : Instance) : Option Route :=
  match r.nodes with
  | [] => some { r with is_feasible := false }
  | first :: rest =>
    match findDepotId inst with
    | none =>
      some { r with
             total_distance := 0
             total_cost := 0
             total_time := 0
             is_feasible := false }
    | some depot_id =>
      if first.id ≠ depot_id ∨ ((first :: rest).getLast (List.cons_ne_nil first rest)).id ≠ depot_id then
        some { r with
               total_distance := 0
               total_cost := 0
               total_time := 0
               is_feasible := false }
      else
        let s0 : EvalState :=
          { battery := inst.vehicle.battery_capacity, load := 0, time := 0,
            dist := 0, cost := 0, prev := depot_id }
        match routeLoop inst r.charging_decisions s0 rest with
        | .err => none
        | .infeasible d c =>
          some { r with
                 total_distance := d
                 total_cost := c
                 total_time := 0
                 is_feasible := false }
        | .ok s =>
          some { r with
                 total_distance := s.dist
                 total_cost := s.cost
                 total_time := s.time
                 is_feasible := !decide (s.time > inst.max_route_duration) }

/-- Replay of the simulation: the list of (node processed, state after that
node) pairs along the walk of Route.evaluate, cut off at a violation. -/
def routeTraceAux (inst : Instance) (cds : List (ℤ × Technology × ℚ)) :
    EvalState → List Node → List (Node × EvalState)
  | _, [] => []
  | s, node :: rest =>
    match routeStep inst cds s node with
    | .ok s1 => (node, s1) :: routeTraceAux inst cds s1 rest
    | _ => []

/-- Replay of the node-by-node simulation of Route.evaluate on a route. -/
def routeTrace (inst : Instance) (r : Route) : List (Node × EvalState) :=
  match r.nodes with
  | [] => []
  | _ :: rest =>
    match findDepotId inst with
    | none => []
    | some depot_id =>
      routeTraceAux inst r.charging_decisions
        { battery := inst.vehicle.battery_capacity, load := 0, time := 0,
          dist := 0, cost := 0, prev := depot_id } rest

/-- solution.py lines 116-123: the tech_found validation of
Solution._evaluate_route — a station validates against its own technologies,
a depot against the technologies of the instance's first depot. -/
def solTechFound (inst : Instance) (node : Node) (tech : Technology) : Bool :=
  if node.type = NodeType.STATION then
    node.technologies.any fun t => decide (t.id = tech.id)
  else
    match inst.nodes.find? fun n => decide (n.type = NodeType.DEPOT) with
    | some depot_node => depot_node.technologies.any fun t => decide (t.id = tech.id)
    | none => false

/-- One iteration of the loop of Solution._evaluate_route (solution.py lines
80-141).  It differs from routeStep in the guard of the charging branch
(charging applies at stations, and at depots only when the node is not the
last of the route) and in validating a depot charging technology against the
instance's first depot rather than the visited node. -/
def solRouteStep (inst : Instance) (cds : List (ℤ × Technology × ℚ))
    (isLast : Bool) (s : EvalState) (node : Node) : StepRes :=
  let travel_dist := inst.distance_matrix s.prev node.id
  let travel_time := inst.time_matrix s.prev node.id
  let energy_consumed := travel_dist * inst.vehicle.consumption_rate
  if s.battery < energy_consumed then
    .infeasible s.dist s.cost
  else
    let battery := s.battery - energy_consumed
    let time := s.time + travel_time
    let dist := s.dist + travel_dist
    if node.type = NodeType.CUSTOMER then
      let load := s.load + node.demand
      let time := time + node.service_time
      if load > inst.vehicle.capacity then
        .infeasible dist s.cost
      else
        .ok { battery := battery, load := load, time := time, dist := dist,
              cost := s.cost, prev := node.id }
    else if node.type = NodeType.STATION ∨ (node.type = NodeType.DEPOT ∧ isLast = false) then
      match lookupDecision cds node.id with
      | none =>
        .ok { battery := battery, load := s.load, time := time, dist := dist,
              cost := s.cost, prev := node.id }
      | some (tech, energy_to_charge) =>
        let tech_found := solTechFound inst node tech
        if tech_found = false then
          .infeasible dist s.cost
        else if tech.power = 0 then
          .err
        else
          let charging_time := energy_to_charge / tech.power
          let time := time + inst.charging_fixed_time + charging_time
          let battery := min (battery + energy_to_charge) inst.vehicle.battery_capacity
          let cost := s.cost + energy_to_charge * tech.cost_per_kwh
              + inst.battery_depreciation_cost
          .ok { battery := battery, load := s.load, time := time, dist := dist,
                cost := cost, prev := node.id }
    else
      .ok { battery := battery, load := s.load, time := time, dist := dist,
            cost := s.cost, prev := node.id }

/-- The loop of Solution._evaluate_route over nodes[1:]; the final element of
the tail is the last node of the route (index i == len(nodes) - 1). -/
def solRouteLoop (inst : Instance) (cds : List (ℤ × Technology × ℚ)) :
    EvalState → List Node → StepRes
  | s, [] => .ok s
  | s, [node] => solRouteStep inst cds true s node
  | s, node :: rest =>
    match solRouteStep inst cds false s node with
    | .ok s1 => solRouteLoop inst cds s1 rest
    | r => r

/-- solution.py lines 47-158: Solution._evaluate_route.  Same shape as
Route.evaluate, with the two extra end-of-walk checks of the source: the time
cap and the battery-tolerance check (the float literal -0.001 is modelled as
the rational -1/1000; under every use below the final battery is nonnegative,
so the exact value of the tolerance is immaterial).  The
hasattr(vehicle_cost_per_route) branch is dead in this repository (the
attribute is never created) and is not modelled. -/
def evalRouteSol (inst : Instance) (r : Route) : Option Route :=
  match r.nodes with
  | [] => some { r with is_feasible := false }
  | first :: rest =>
    match findDepotId inst with
    | none =>
      some { r with
             total_distance := 0
             total_cost := 0
             total_time := 0
             is_feasible := false }
    | some depot_id =>
      if first.id ≠ depot_id ∨ ((first :: rest).getLast (List.cons_ne_nil first rest)).id ≠ depot_id then
        some { r with
               total_distance := 0
               total_cost := 0
               total_time := 0
               is_feasible := false }
      else
        let s0 : EvalState :=
          { battery := inst.vehicle.battery_capacity, load := 0, time := 0,
            dist := 0, cost := 0, prev := depot_id }
        match solRouteLoop inst r.charging_decisions s0 rest with
        | .err => none
        | .infeasible d c =>
          some { r with
                 total_distance := d
                 total_cost := c
                 total_time := 0
                 is_feasible := false }
        | .ok s =>
          let feas1 := !decide (s.time > inst.max_route_duration)
          let feas2 := feas1 && !decide (s.battery < -(1/1000 : ℚ))
          some { r with
                 total_distance := s.dist
                 total_cost := s.cost
                 total_time := s.time
                 is_feasible := feas2 }

/-- The per-route evaluation loop of Solution.evaluate; a ZeroDivisionError
in any route propagates out of the whole evaluation. -/
def evalRoutes (inst : Instance) : List Route → Option (List Route)
  | [] => some []
  | r :: rest =>
    match evalRouteSol inst r with
    | none => none
    | some r1 =>
      match evalRoutes inst rest with
      | none => none
      | some rs => some (r1 :: rs)

/-- solution.py lines 35-39: the ids of customers served across all routes. -/
def servedCustomerIds (routes : List Route) : List ℤ :=
  (routes.map fun r =>
    (r.nodes.filter fun n => decide (n.type = NodeType.CUSTOMER)).map Node.id).flatten

/-- solution.py line 41: the ids of all customers of the instance. -/
def allCustomerIds (inst : Instance) : List ℤ :=
  (inst.nodes.filter fun n => decide (n.type = NodeType.CUSTOMER)).map Node.id

/-- Equality of the two Python id sets, as mutual containment of the modelled
id lists. -/
def idSetEq (a b : List ℤ) : Bool :=
  (a.all fun i => decide (i ∈ b)) && (b.all fun i => decide (i ∈ a))

/-- solution.py lines 15-45: Solution.evaluate.  Evaluates every route with
_evaluate_route, sums the per-route distance and cost into the solution
totals, sets num_vehicles_used = len(routes), and is feasible exactly when
the vehicle bound holds, every route is feasible, and the served customer id
set equals the instance's customer id set. -/
def Solution.evaluate (inst : Instance) (s : Solution) : Option Solution :=
  match evalRoutes inst s.routes with
  | none => none
  | some rs =>
    let num_vehicles_used := s.routes.length
    let feas1 := !decide (num_vehicles_used > inst.num_vehicles)
    let feas2 := feas1 && rs.all Route.is_feasible
    let total_distance := (rs.map Route.total_distance).sum
    let total_cost := (rs.map Route.total_cost).sum
    let feas3 := feas2 && idSetEq (servedCustomerIds rs) (allCustomerIds inst)
    some { s with
           routes := rs
           total_distance := total_distance
           total_cost := total_cost
           num_vehicles_used := num_vehicles_used
           is_feasible := feas3 }

/-!  The archive (GVNS.py lines 88-139). -/

/-- The set of (total_distance, total_cost) fingerprints of the feasible
members of a list (GVNS.py lines 94-95 and 134). -/
def feasibleHashes (archive : List Solution) : List (ℚ × ℚ) :=
  (archive.filter Solution.is_feasible).map get_solution_hash

/-- GVNS.py lines 97-104: the feasible solutions whose fingerprint is new;
existing_hashes grows as candidates are accepted, so a later candidate with
the same fingerprint as an accepted one is dropped. -/
def trulyNew (existing_hashes : List (ℚ × ℚ)) : List Solution → List Solution
  | [] => []
  | new_sol :: rest =>
    if new_sol.is_feasible then
      if get_solution_hash new_sol ∈ existing_hashes then
        trulyNew existing_hashes rest
      else
        new_sol :: trulyNew (get_solution_hash new_sol :: existing_hashes) rest
    else
      trulyNew existing_hashes rest

/-- GVNS.py line 107: the state of the caller's archive list after
archive.extend(truly_new_solutions). -/
def mergedArchiveExt (archive new_solutions : List Solution) : List Solution :=
  archive ++ trulyNew (feasibleHashes archive) new_solutions

/-- GVNS.py lines 110-126: the dominated-member removal pass, with
duplicate-fingerprint suppression; processed_hashes accumulates the
fingerprints of the kept solutions. -/
def ndLoop (archiveExt : List Solution) :
    List Solution → List (ℚ × ℚ) → List Solution
  | [], _ => []
  | sol :: rest, processed_hashes =>
    if sol.is_feasible = false then
      ndLoop archiveExt rest processed_hashes
    else if get_solution_hash sol ∈ processed_hashes then
      ndLoop archiveExt rest processed_hashes
    else if is_non_dominated sol archiveExt then
      sol :: ndLoop archiveExt rest (get_solution_hash sol :: processed_hashes)
    else
      ndLoop archiveExt rest processed_hashes

/-- The merged non-dominated set built inside update_archive before the size
limit is applied. -/
def mergedNonDominated (archive new_solutions : List Solution) : List Solution :=
  ndLoop (mergedArchiveExt archive new_solutions)
    (mergedArchiveExt archive new_solutions) []

/-- The ascending lexicographic comparison on (total_distance, total_cost):
the key of the truncation sort the source performs (GVNS.py line 130). -/
def keyDistCost (a b : Solution) : Bool :=
  decide (a.total_distance < b.total_distance) ||
    (decide (a.total_distance = b.total_distance) &&
      decide (a.total_cost ≤ b.total_cost))

/-- The ascending lexicographic comparison on (total_distance,
num_vehicles_used, total_cost): the truncation key named by the spec. -/
def keyDistVehCost (a b : Solution) : Bool :=
  decide (a.total_distance < b.total_distance) ||
    (decide (a.total_distance = b.total_distance) &&
      (decide (a.num_vehicles_used < b.num_vehicles_used) ||
        (decide (a.num_vehicles_used = b.num_vehicles_used) &&
          decide (a.total_cost ≤ b.total_cost))))

/-- Equality of two Python sets of fingerprints, as mutual containment. -/
def hashSetEq (a b : List (ℚ × ℚ)) : Bool :=
  (a.all fun h => decide (h ∈ b)) && (b.all fun h => decide (h ∈ a))

/-- GVNS.py lines 88-139: update_archive.  First component: the returned
(non_dominated, changed) pair; second component: the post-call state of the
caller's archive list object, mutated by archive.extend at line 107 before
the fresh result list is built.  Python's stable list.sort with a tuple key
is modelled by List.mergeSort with the lexicographic comparison. -/
def update_archive (na : ℕ) (archive new_solutions : List Solution) :
    (List Solution × Bool) × List Solution :=
  let old_hashes := feasibleHashes archive
  let non_dominated := mergedNonDominated archive new_solutions
  let non_dominated1 :=
    if non_dominated.length > na then
      (non_dominated.mergeSort keyDistCost).take na
    else
      non_dominated
  let changed := !hashSetEq (feasibleHashes non_dominated1) old_hashes
  ((non_dominated1, changed), mergedArchiveExt archive new_solutions)

/-!  The GVNS engine (GVNS.py lines 200-361).  Neighborhood operators are
abstract parameters: a local-search method mutates its candidate in place and
reports whether it improved, modelled as Solution → Bool × Solution; a
perturbation method returns a new candidate built from a deep copy, modelled
as Solution → Solution.  random.choice is modelled by an index oracle
rand : ℕ → ℕ consumed once per outer iteration.  Loops whose termination
depends on operator behavior (_improve_solution with iterate=True, and the
outer while) take explicit fuel; exhausted fuel yields RunRes.diverge and a
Python exception yields RunRes.exn.  Printing and metrics tracking are
value-irrelevant and not modelled. -/

structure GVNSConfig where
  inst : Instance
  ns : ℕ
  na : ℕ
  ls_max_iter : ℕ
  max_evaluations : ℕ
  pertubation_algorithms : List (Solution → Solution)
  local_search_algorithms : List (Solution → Bool × Solution)

/-- The engine's mutable counters: self.evaluation_count, plus a model-side
tally of how many operator method invocations have been issued. -/
structure EngineState where
  evaluation_count : ℕ
  operator_calls : ℕ
  deriving DecidableEq

/-- Outcome of an engine fragment: a value, a propagated Python exception, or
nontermination (fuel exhaustion in the model). -/
inductive RunRes (α : Type) where
  | ok (a : α)
  | exn
  | diverge
  deriving DecidableEq

/-- GVNS.py lines 200-212: _improve_solution.  Runs the local-search methods
from method_idx, restarting from index 0 after an improvement when iterate is
set; every method call is one operator invocation. -/
def improveLoop (cfg : GVNSConfig) (iterate : Bool) :
    ℕ → Solution → ℕ → EngineState → RunRes (Solution × EngineState)
  | 0, _, _, _ => .diverge
  | fuel + 1, candidate, method_idx, st =>
    match cfg.local_search_algorithms.get? method_idx with
    | none => .ok (candidate, st)
    | some method =>
      let (improved, candidate1) := method candidate
      let st1 := { st with operator_calls := st.operator_calls + 1 }
      if improved && iterate then
        improveLoop cfg iterate fuel candidate1 0 st1
      else
        improveLoop cfg iterate fuel candidate1 (method_idx + 1) st1

/-- GVNS.py lines 214-226: local_search.  Runs up to rounds (= self.ns)
improvement rounds, stopping before any round that would exceed the
evaluation budget; the counter is incremented before the round's operator
calls are issued, and every feasible evaluated candidate is collected. -/
def localSearchRounds (cfg : GVNSConfig) (fuel : ℕ) (iterate : Bool) :
    ℕ → Solution → EngineState → RunRes (List Solution × EngineState)
  | 0, _, st => .ok ([], st)
  | rounds + 1, candidate, st =>
    if st.evaluation_count ≥ cfg.max_evaluations then
      .ok ([], st)
    else
      let st1 := { st with evaluation_count := st.evaluation_count + 1 }
      match improveLoop cfg iterate fuel candidate 0 st1 with
      | .exn => .exn
      | .diverge => .diverge
      | .ok (candidate1, st2) =>
        match Solution.evaluate cfg.inst candidate1 with
        | none => .exn
        | some candidate2 =>
          match localSearchRounds cfg fuel iterate rounds candidate2 st2 with
          | .ok (solutions, st3) =>
            .ok ((if candidate2.is_feasible then [candidate2] else []) ++ solutions, st3)
          | .exn => .exn
          | .diverge => .diverge

/-- GVNS.py lines 228-240: perturbation.  Applies every perturbation method
in turn, incrementing the evaluation counter once per method with no budget
check, and keeps the result only when it evaluates feasible. -/
def perturbationChain (cfg : GVNSConfig) :
    List (Solution → Solution) → Solution → EngineState →
    RunRes (Solution × EngineState)
  | [], perturbed_sol, st => .ok (perturbed_sol, st)
  | method :: rest, perturbed_sol, st =>
    let new_solution := method perturbed_sol
    match Solution.evaluate cfg.inst new_solution with
    | none => .exn
    | some new_solution1 =>
      let st1 : EngineState :=
        { evaluation_count := st.evaluation_count + 1
          operator_calls := st.operator_calls + 1 }
      perturbationChain cfg rest
        (if new_solution1.is_feasible then new_solution1 else perturbed_sol) st1

/-- GVNS.py lines 255-277: the seeding pass of run over the initial
population; infeasible inputs are skipped, and the pass stops early once the
budget is reached. -/
def seedArchive (cfg : GVNSConfig) (fuel : ℕ) :
    List Solution → List Solution → EngineState →
    RunRes (List Solution × EngineState)
  | [], archive, st => .ok (archive, st)
  | solution :: rest, archive, st =>
    if solution.is_feasible = false then
      seedArchive cfg fuel rest archive st
    else
      match localSearchRounds cfg fuel false cfg.ns solution st with
      | .ok (local_solutions, st1) =>
        let archive1 := ((update_archive cfg.na archive local_solutions).1).1
        if st1.evaluation_count ≥ cfg.max_evaluations then
          .ok (archive1, st1)
        else
          seedArchive cfg fuel rest archive1 st1
      | .exn => .exn
      | .diverge => .diverge

/-- GVNS.py lines 310-335: the inner retry loop; it stops when the archive
changed, the retry budget ls_max_iter is used up, or the evaluation budget is
reached, and otherwise perturbs, improves and updates the archive. -/
def innerLoop (cfg : GVNSConfig) (fuel : ℕ) (x : Solution) :
    ℕ → List Solution → Bool → EngineState →
    RunRes (List Solution × Bool × EngineState)
  | 0, archive, archive_changed, st => .ok (archive, archive_changed, st)
  | tries + 1, archive, archive_changed, st =>
    if archive_changed = true ∨ st.evaluation_count ≥ cfg.max_evaluations then
      .ok (archive, archive_changed, st)
    else
      match perturbationChain cfg cfg.pertubation_algorithms x st with
      | .ok (x_prime, st1) =>
        match localSearchRounds cfg fuel true cfg.ns x_prime st1 with
        | .ok (local_solutions, st2) =>
          let res := (update_archive cfg.na archive local_solutions).1
          innerLoop cfg fuel x tries res.1 (archive_changed || res.2) st2
        | .exn => .exn
        | .diverge => .diverge
      | .exn => .exn
      | .diverge => .diverge

/-- GVNS.py lines 292-346: the outer loop of run; terminates when the budget
is exhausted or the archive holds no (feasible) solution, and otherwise draws
a feasible member through the index oracle and runs the inner retry loop. -/
def mainLoop (cfg : GVNSConfig) (fuel : ℕ) (rand : ℕ → ℕ) :
    ℕ → ℕ → List Solution → EngineState → RunRes (List Solution × EngineState)
  | 0, _, _, _ => .diverge
  | f + 1, t, archive, st =>
    if st.evaluation_count ≥ cfg.max_evaluations then
      .ok (archive, st)
    else if archive.isEmpty then
      .ok (archive, st)
    else
      let feasible_solutions := archive.filter Solution.is_feasible
      if feasible_solutions.isEmpty then
        .ok (archive, st)
      else
        let x := feasible_solutions.getD (rand t % feasible_solutions.length) default
        match innerLoop cfg fuel x cfg.ls_max_iter archive false st with
        | .ok (archive1, _, st1) => mainLoop cfg fuel rand f (t + 1) archive1 st1
        | .exn => .exn
        | .diverge => .diverge

/-- GVNS.py lines 242-361: run.  Seeds the archive from the initial
population, returns the empty list when seeding yields an empty archive, and
otherwise iterates the outer loop until the budget is exhausted or the
archive starves. -/
def GVNS.run (cfg : GVNSConfig) (fuel : ℕ) (rand : ℕ → ℕ)
    (initial_population : List Solution) : RunRes (List Solution × EngineState) :=
  match seedArchive cfg fuel initial_population [] ⟨0, 0⟩ with
  | .ok (archive, st) =>
    if archive.isEmpty then .ok ([], st)
    else mainLoop cfg fuel rand fuel 0 archive st
  | .exn => .exn
  | .diverge => .diverge

/-!  Concrete fixtures used by witnesses and counterexamples. -/

/-- A charging technology with power 1 and unit energy cost. -/
def tech1 : Technology := ⟨1, 1, 1⟩

/-- A charging technology whose power is 0 (the divisor of the charging-time
computation). -/
def tech0 : Technology := ⟨2, 0, 1⟩

/-- A charging technology with power 2. -/
def tech2 : Technology := ⟨3, 2, 1⟩

/-- The depot node, offering tech1 and tech2. -/
def depot0 : Node := ⟨0, NodeType.DEPOT, 0, 0, 0, 0, [tech1, tech2]⟩

/-- A customer with demand 1 and service time 1. -/
def cust1 : Node := ⟨1, NodeType.CUSTOMER, 0, 0, 1, 1, []⟩

/-- A station offering only the power-0 technology. -/
def stat2 : Node := ⟨2, NodeType.STATION, 0, 0, 0, 0, [tech0]⟩

/-- A station offering tech2. -/
def stat3 : Node := ⟨3, NodeType.STATION, 0, 0, 0, 0, [tech2]⟩

/-- A vehicle with capacity 10, battery 10, consumption rate 1. -/
def veh0 : Vehicle := ⟨10, 10, 1, 10⟩

/-- A small instance: one depot, one customer, all pair distances and travel
times 1, duration cap 100, fixed charging time 1, depreciation cost 2. -/
def inst0 : Instance :=
  ⟨[depot0, cust1], veh0, 5, fun _ _ => 1, fun _ _ => 1, [tech1, tech2], 100, 1, 2⟩

/-- inst0 extended with the power-0 station. -/
def inst1 : Instance :=
  ⟨[depot0, cust1, stat2], veh0, 5, fun _ _ => 1, fun _ _ => 1, [tech0], 100, 1, 2⟩

/-- inst0 extended with the tech2 station stat3. -/
def inst2 : Instance :=
  ⟨[depot0, cust1, stat3], veh0, 5, fun _ _ => 1, fun _ _ => 1, [tech1, tech2], 100, 1, 2⟩

/-- depot - customer - depot, no charging. -/
def r0 : Route := ⟨[depot0, cust1, depot0], [], 0, 0, 0, true⟩

/-- depot - depot with a charging decision recorded for the depot id: the
final node of the route carries a charging decision. -/
def r1 : Route := ⟨[depot0, depot0], [(0, tech1, 5)], 0, 0, 0, true⟩

/-- depot - station - depot charging 5 energy units at the power-0 station. -/
def r2 : Route := ⟨[depot0, stat2, depot0], [(2, tech0, 5)], 0, 0, 0, true⟩

/-- depot - station - customer - depot charging 4 energy units with tech2. -/
def r3 : Route := ⟨[depot0, stat3, cust1, depot0], [(3, tech2, 4)], 0, 0, 0, true⟩

/-- A bare solution carrying only the two objectives. -/
def mkSol (d c : ℚ) : Solution := ⟨[], d, c, 0, true⟩

/-- Objective vector (100, 50) (spec scenario of section 8). -/
def solA : Solution := mkSol 100 50

/-- Objective vector (90, 60). -/
def solB : Solution := mkSol 90 60

/-- Objective vector (80, 40), dominating both solA and solB. -/
def solC : Solution := mkSol 80 40

/-- An instance with no nodes at all. -/
def instE : Instance := ⟨[], veh0, 0, fun _ _ => 0, fun _ _ => 0, [], 0, 0, 0⟩

/-- The empty solution over instE: it evaluates feasible (0 vehicles ≤ 0,
no route, empty customer coverage). -/
def sol0 : Solution := ⟨[], 0, 0, 0, true⟩

/-- A local-search method that never changes its candidate and reports no
improvement. -/
def lsStay : Solution → Bool × Solution := fun s => (false, s)

/-- Configuration for the budget counterexample: ns = 1, na = 5,
ls_max_iter = 1, max_evaluations = 1, no perturbation methods, and two
local-search methods. -/
def cfg5 : GVNSConfig := ⟨instE, 1, 5, 1, 1, [], [lsStay, lsStay]⟩

/-- The value Route.evaluate computes for r3 on inst2: distance 3, cost
4 * 1 + 2, time 7, feasible. -/
def r3e : Route := ⟨[depot0, stat3, cust1, depot0], [(3, tech2, 4)], 3, 6, 7, true⟩

/-- A solution holding the single route r3. -/
def solW : Solution := ⟨[r3], 0, 0, 0, true⟩

/-- A solution holding the single route r0 (no charging decisions at all). -/
def sol7 : Solution := ⟨[r0], 0, 0, 0, true⟩

/-- The value either evaluator computes for r0 on inst0: distance 2, cost 0,
time 3, feasible. -/
def r0e : Route := ⟨[depot0, cust1, depot0], [], 2, 0, 3, true⟩

/-- The value Solution.evaluate computes for sol7 on inst0. -/
def sol7e : Solution := ⟨[r0e], 2, 0, 1, true⟩

/-- The guard under which no evaluator division can raise: every charging
decision across the solution's routes uses a nonzero-power technology.
Every instance built by the parser satisfies it, because a technology's
power comes from a positive dataset field.  Reducible so that concrete
instances stay decidable. -/
abbrev goodSolution (s : Solution) : Prop :=
  ∀ r ∈ s.routes, ∀ d ∈ r.charging_decisions, d.2.1.power ≠ 0

/-- Engine configuration over instE with no operators at all: ns = 1,
na = 5, ls_max_iter = 1, max_evaluations = 1. -/
def cfgW : GVNSConfig := ⟨instE, 1, 5, 1, 1, [], []⟩

/-!  Helper lemmas. -/

theorem route_dominates_iff (a b : Route) :
    a.dominates b = true ↔
      (a.total_distance ≤ b.total_distance ∧ a.total_cost ≤ b.total_cost) ∧
      (a.total_distance < b.total_distance ∨ a.total_cost < b.total_cost) := by
  unfold Route.dominates
  split_ifs with h1 h2 <;> simp_all

theorem solution_dominates_iff (a b : Solution) :
    a.dominates b = true ↔
      (a.total_distance ≤ b.total_distance ∧ a.total_cost ≤ b.total_cost) ∧
      (a.total_distance < b.total_distance ∨ a.total_cost < b.total_cost) := by
  unfold Solution.dominates
  split_ifs with h1 h2 <;> simp_all

/-!  Claim theorems. -/

/-- C8: the dominance relation on (total_distance, total_cost) is
antisymmetric and irreflexive: no pair of routes dominates each other both
ways, and no route dominates itself. -/
theorem route_dominates_antisymm_irrefl (a b : Route) :
    (a.dominates b && b.dominates a) = false ∧ a.dominates a = false := by
  constructor
  · rcases hab : a.dominates b with _ | _
    · simp
    · rcases hba : b.dominates a with _ | _
      · simp
      · rw [route_dominates_iff] at hab hba
        exfalso
        rcases hab with ⟨⟨hd1, hc1⟩, h1⟩
        rcases hba with ⟨⟨hd2, hc2⟩, _⟩
        rcases h1 with h | h <;> linarith
  · rcases h : a.dominates a with _ | _
    · simp
    · rw [route_dominates_iff] at h
      exfalso
      rcases h with ⟨_, h | h⟩ <;> exact absurd h (lt_irrefl _)

/-- C1: is_non_dominated(solution, archive) returns true iff no feasible
member of the archive Pareto-dominates it under the 2-objective dominance on
(total_distance, total_cost): no worse in both objectives and strictly
better in at least one. -/
theorem is_non_dominated_iff (solution : Solution) (archive : List Solution) :
    is_non_dominated solution archive = true ↔
      ∀ a ∈ archive, a.is_feasible = true →
        ¬ ((a.total_distance ≤ solution.total_distance ∧
              a.total_cost ≤ solution.total_cost) ∧
            (a.total_distance < solution.total_distance ∨
              a.total_cost < solution.total_cost)) := by
  unfold is_non_dominated
  rw [List.all_eq_true]
  constructor
  · intro h a ha hfeas hdom
    have h1 := h a ha
    have hd : a.dominates solution = true :=
      (solution_dominates_iff a solution).mpr hdom
    rw [hfeas, hd] at h1
    simp at h1
  · intro h a ha
    by_cases hfeas : a.is_feasible = true
    · have hnd := h a ha hfeas
      have hd : a.dominates solution = false := by
        rcases hdb : a.dominates solution with _ | _
        · rfl
        · exact absurd ((solution_dominates_iff a solution).mp hdb) hnd
      rw [hfeas, hd]
      rfl
    · rw [Bool.not_eq_true] at hfeas
      rw [hfeas]
      rfl


unseal Rat.mul Rat.inv in
/-- C9 counterexample: the Vehicle constructed with capacity 10, battery
capacity 20 and consumption rate 2 has max_range 10, which is not
capacity / consumption_rate = 5. -/
theorem vehicle_max_range_counterexample :
    (Vehicle.init 10 20 2).max_range ≠ (10 : ℚ) / 2 := by decide

/-- C9 amended: for every Vehicle constructed with capacity, battery capacity
and consumption rate (nonzero, so that the Python constructor's division does
not raise), the derived max_range field equals battery_capacity divided by
consumption_rate. -/
theorem vehicle_max_range_eq (capacity battery_capacity consumption_rate : ℚ)
    (h : consumption_rate ≠ 0) :
    (Vehicle.init capacity battery_capacity consumption_rate).max_range =
      battery_capacity / consumption_rate := rfl

unseal Rat.mul Rat.inv in
/-- Witness for the amended C9 theorem at the concrete vehicle (10, 20, 2). -/
theorem vehicle_max_range_eq_witness :
    (2 : ℚ) ≠ 0 ∧ (Vehicle.init 10 20 2).max_range = 20 / 2 :=
  ⟨by norm_num, vehicle_max_range_eq 10 20 2 (by norm_num)⟩

/-- If some solution of the list is feasible and carries a fingerprint not in
existing_hashes, the filtered batch is nonempty. -/
theorem trulyNew_ne_nil (existing : List (ℚ × ℚ)) (l : List Solution)
    (h : ∃ s ∈ l, s.is_feasible = true ∧ get_solution_hash s ∉ existing) :
    trulyNew existing l ≠ [] := by
  induction l generalizing existing with
  | nil => rcases h with ⟨s, hs, _⟩; cases hs
  | cons a rest ih =>
    rcases h with ⟨s, hs, hfeas, hnew⟩
    unfold trulyNew
    by_cases haf : a.is_feasible = true
    · rw [if_pos haf]
      by_cases hmem : get_solution_hash a ∈ existing
      · rw [if_pos hmem]
        apply ih
        rcases List.mem_cons.mp hs with rfl | hs1
        · exact absurd hmem hnew
        · exact ⟨s, hs1, hfeas, hnew⟩
      · rw [if_neg hmem]
        simp
    · rw [if_neg haf]
      apply ih
      rcases List.mem_cons.mp hs with rfl | hs1
      · exact absurd hfeas haf
      · exact ⟨s, hs1, hfeas, hnew⟩

/-- C10: update_archive mutates the list object passed as its archive
argument: whenever new_solutions contains a feasible solution whose
(total_distance, total_cost) fingerprint is not already present among the
feasible members, the caller's list ends up extended in place by the
nonempty accepted batch — it is no longer the original list — even though
the function also returns a freshly built result list. -/
theorem update_archive_mutates (na : ℕ) (archive new_solutions : List Solution)
    (h : ∃ s ∈ new_solutions, s.is_feasible = true ∧
      get_solution_hash s ∉ feasibleHashes archive) :
    (update_archive na archive new_solutions).2 =
        archive ++ trulyNew (feasibleHashes archive) new_solutions ∧
      trulyNew (feasibleHashes archive) new_solutions ≠ [] ∧
      (update_archive na archive new_solutions).2 ≠ archive := by
  refine ⟨rfl, trulyNew_ne_nil _ _ h, ?_⟩
  intro heq
  have htn : trulyNew (feasibleHashes archive) new_solutions = [] := by
    have h2 : archive ++ trulyNew (feasibleHashes archive) new_solutions
        = archive ++ [] := by
      rw [List.append_nil]
      exact heq
    exact List.append_cancel_left h2
  exact trulyNew_ne_nil _ _ h htn

/-- Witness for C10: adding the solution with objectives (80, 40) to the
archive holding (100, 50) extends the caller's list in place. -/
theorem update_archive_mutates_witness :
    (∃ s ∈ [solC], s.is_feasible = true ∧
        get_solution_hash s ∉ feasibleHashes [solA]) ∧
      ((update_archive 50 [solA] [solC]).2 =
          [solA] ++ trulyNew (feasibleHashes [solA]) [solC] ∧
        trulyNew (feasibleHashes [solA]) [solC] ≠ [] ∧
        (update_archive 50 [solA] [solC]).2 ≠ [solA]) :=
  ⟨by decide, update_archive_mutates 50 [solA] [solC] (by decide)⟩

/-- If s is non-dominated w.r.t. A, then no feasible member of A dominates
it. -/
theorem is_non_dominated_no_dom (s : Solution) (A : List Solution) (a : Solution)
    (hnd : is_non_dominated s A = true) (ha : a ∈ A)
    (hfeas : a.is_feasible = true) : a.dominates s = false := by
  unfold is_non_dominated at hnd
  rw [List.all_eq_true] at hnd
  have h1 := hnd a ha
  rw [hfeas] at h1
  simpa using h1

/-- Every member of the non-dominated filter comes from the scanned list, is
feasible, is non-dominated w.r.t. the whole extended archive, and carries a
fingerprint outside the processed set. -/
theorem ndLoop_mem (archiveExt l : List Solution) :
    ∀ (processed : List (ℚ × ℚ)) (s : Solution),
      s ∈ ndLoop archiveExt l processed →
      s ∈ l ∧ s.is_feasible = true ∧ is_non_dominated s archiveExt = true ∧
        get_solution_hash s ∉ processed := by
  induction l with
  | nil => intro processed s h; simp [ndLoop] at h
  | cons a rest ih =>
    intro processed s h
    unfold ndLoop at h
    by_cases h1 : a.is_feasible = false
    · rw [if_pos h1] at h
      obtain ⟨hm, hrest⟩ := ih processed s h
      exact ⟨List.mem_cons_of_mem a hm, hrest⟩
    · rw [if_neg h1] at h
      by_cases h2 : get_solution_hash a ∈ processed
      · rw [if_pos h2] at h
        obtain ⟨hm, hrest⟩ := ih processed s h
        exact ⟨List.mem_cons_of_mem a hm, hrest⟩
      · rw [if_neg h2] at h
        by_cases h3 : is_non_dominated a archiveExt = true
        · rw [if_pos h3] at h
          rcases List.mem_cons.mp h with rfl | h4
          · exact ⟨List.mem_cons_self _ _, (by simpa using h1), h3, h2⟩
          · obtain ⟨hm, hfeas, hnd, hp⟩ := ih _ s h4
            exact ⟨List.mem_cons_of_mem a hm, hfeas, hnd,
              fun hc => hp (List.mem_cons_of_mem _ hc)⟩
        · rw [if_neg h3] at h
          obtain ⟨hm, hrest⟩ := ih processed s h
          exact ⟨List.mem_cons_of_mem a hm, hrest⟩

/-- The non-dominated filter keeps at most one solution per fingerprint. -/
theorem ndLoop_pairwise (archiveExt l : List Solution) :
    ∀ (processed : List (ℚ × ℚ)),
      (ndLoop archiveExt l processed).Pairwise
        fun a b => get_solution_hash a ≠ get_solution_hash b := by
  induction l with
  | nil => intro processed; simp [ndLoop]
  | cons a rest ih =>
    intro processed
    unfold ndLoop
    by_cases h1 : a.is_feasible = false
    · rw [if_pos h1]; exact ih processed
    · rw [if_neg h1]
      by_cases h2 : get_solution_hash a ∈ processed
      · rw [if_pos h2]; exact ih processed
      · rw [if_neg h2]
        by_cases h3 : is_non_dominated a archiveExt = true
        · rw [if_pos h3]
          refine List.Pairwise.cons ?_ (ih _)
          intro b hb
          obtain ⟨_, _, _, hp⟩ := ndLoop_mem archiveExt rest _ b hb
          intro hc
          exact hp (hc ▸ List.mem_cons_self _ _)
        · rw [if_neg h3]; exact ih processed

/-- The returned result list of update_archive, unfolded. -/
theorem update_archive_fst (na : ℕ) (archive new_solutions : List Solution) :
    ((update_archive na archive new_solutions).1).1 =
      if (mergedNonDominated archive new_solutions).length > na then
        ((mergedNonDominated archive new_solutions).mergeSort keyDistCost).take na
      else
        mergedNonDominated archive new_solutions := rfl

/-- Every member of the returned result list is a member of the merged
non-dominated set. -/
theorem update_archive_fst_subset (na : ℕ) (archive new_solutions : List Solution)
    (s : Solution) (h : s ∈ ((update_archive na archive new_solutions).1).1) :
    s ∈ mergedNonDominated archive new_solutions := by
  rw [update_archive_fst] at h
  by_cases hlen : (mergedNonDominated archive new_solutions).length > na
  · rw [if_pos hlen] at h
    exact List.mem_mergeSort.mp (List.take_subset _ _ h)
  · rw [if_neg hlen] at h
    exact h

/-- C3: for every archive list and list of new solutions, the archive
returned by update_archive satisfies the archive invariant: its size is at
most NA, every member is feasible (infeasible candidates are never stored),
and no member Pareto-dominates another member. -/
theorem update_archive_invariant (na : ℕ) (archive new_solutions : List Solution) :
    (((update_archive na archive new_solutions).1).1).length ≤ na ∧
      (∀ s ∈ ((update_archive na archive new_solutions).1).1,
        s.is_feasible = true) ∧
      ∀ a ∈ ((update_archive na archive new_solutions).1).1,
        ∀ b ∈ ((update_archive na archive new_solutions).1).1,
          a.dominates b = false := by
  refine ⟨?_, ?_, ?_⟩
  · rw [update_archive_fst]
    by_cases hlen : (mergedNonDominated archive new_solutions).length > na
    · rw [if_pos hlen, List.length_take]
      exact min_le_left _ _
    · rw [if_neg hlen]
      omega
  · intro s hs
    obtain ⟨_, hfeas, _, _⟩ := ndLoop_mem _ _ _ s
      (update_archive_fst_subset na archive new_solutions s hs)
    exact hfeas
  · intro a ha b hb
    obtain ⟨hamem, hafeas, _, _⟩ := ndLoop_mem _ _ _ a
      (update_archive_fst_subset na archive new_solutions a ha)
    obtain ⟨_, _, hbnd, _⟩ := ndLoop_mem _ _ _ b
      (update_archive_fst_subset na archive new_solutions b hb)
    exact is_non_dominated_no_dom b _ a hbnd hamem hafeas

theorem keyDistCost_trans (a b c : Solution) (h1 : keyDistCost a b = true)
    (h2 : keyDistCost b c = true) : keyDistCost a c = true := by
  simp only [keyDistCost, Bool.or_eq_true, Bool.and_eq_true,
    decide_eq_true_eq] at h1 h2 ⊢
  rcases h1 with h1 | ⟨h1e, h1c⟩ <;> rcases h2 with h2 | ⟨h2e, h2c⟩
  · exact Or.inl (lt_trans h1 h2)
  · exact Or.inl (h2e ▸ h1)
  · exact Or.inl (h1e ▸ h2)
  · exact Or.inr ⟨h1e.trans h2e, le_trans h1c h2c⟩

theorem keyDistCost_total (a b : Solution) :
    (keyDistCost a b || keyDistCost b a) = true := by
  simp only [keyDistCost, Bool.or_eq_true, Bool.and_eq_true, decide_eq_true_eq]
  rcases lt_trichotomy a.total_distance b.total_distance with h | h | h
  · exact Or.inl (Or.inl h)
  · rcases le_total a.total_cost b.total_cost with hc | hc
    · exact Or.inl (Or.inr ⟨h, hc⟩)
    · exact Or.inr (Or.inr ⟨h.symm, hc⟩)
  · exact Or.inr (Or.inl h)

theorem keyDistVehCost_trans (a b c : Solution) (h1 : keyDistVehCost a b = true)
    (h2 : keyDistVehCost b c = true) : keyDistVehCost a c = true := by
  simp only [keyDistVehCost, Bool.or_eq_true, Bool.and_eq_true,
    decide_eq_true_eq] at h1 h2 ⊢
  rcases h1 with h1 | ⟨h1e, h1r⟩
  · rcases h2 with h2 | ⟨h2e, _⟩
    · exact Or.inl (lt_trans h1 h2)
    · exact Or.inl (h2e ▸ h1)
  · rcases h2 with h2 | ⟨h2e, h2r⟩
    · exact Or.inl (h1e ▸ h2)
    · refine Or.inr ⟨h1e.trans h2e, ?_⟩
      rcases h1r with h1v | ⟨h1ve, h1c⟩ <;> rcases h2r with h2v | ⟨h2ve, h2c⟩
      · exact Or.inl (Nat.lt_trans h1v h2v)
      · exact Or.inl (h2ve ▸ h1v)
      · exact Or.inl (h1ve ▸ h2v)
      · exact Or.inr ⟨h1ve.trans h2ve, le_trans h1c h2c⟩

theorem keyDistVehCost_total (a b : Solution) :
    (keyDistVehCost a b || keyDistVehCost b a) = true := by
  simp only [keyDistVehCost, Bool.or_eq_true, Bool.and_eq_true, decide_eq_true_eq]
  rcases lt_trichotomy a.total_distance b.total_distance with h | h | h
  · exact Or.inl (Or.inl h)
  · rcases Nat.lt_trichotomy a.num_vehicles_used b.num_vehicles_used with hv | hv | hv
    · exact Or.inl (Or.inr ⟨h, Or.inl hv⟩)
    · rcases le_total a.total_cost b.total_cost with hc | hc
      · exact Or.inl (Or.inr ⟨h, Or.inr ⟨hv, hc⟩⟩)
      · exact Or.inr (Or.inr ⟨h.symm, Or.inr ⟨hv.symm, hc⟩⟩)
    · exact Or.inr (Or.inr ⟨h.symm, Or.inl hv⟩)
  · exact Or.inr (Or.inl h)

theorem keyDistCost_le_dist (a b : Solution) (h : keyDistCost a b = true) :
    a.total_distance ≤ b.total_distance := by
  simp only [keyDistCost, Bool.or_eq_true, Bool.and_eq_true,
    decide_eq_true_eq] at h
  rcases h with h | ⟨h, _⟩
  · exact le_of_lt h
  · exact le_of_eq h

theorem keyDistVehCost_le_dist (a b : Solution) (h : keyDistVehCost a b = true) :
    a.total_distance ≤ b.total_distance := by
  simp only [keyDistVehCost, Bool.or_eq_true, Bool.and_eq_true,
    decide_eq_true_eq] at h
  rcases h with h | ⟨h, _⟩
  · exact le_of_lt h
  · exact le_of_eq h

/-- Two lists that are permutations of each other and both pairwise ordered
by R are equal, provided R is antisymmetric on the elements of the first. -/
theorem eq_of_perm_of_pairwise {α : Type} (R : α → α → Prop) :
    ∀ (l1 l2 : List α), l1.Perm l2 → l1.Pairwise R → l2.Pairwise R →
      (∀ a ∈ l1, ∀ b ∈ l1, R a b → R b a → a = b) → l1 = l2 := by
  intro l1
  induction l1 with
  | nil =>
    intro l2 hp _ _ _
    exact hp.nil_eq
  | cons a t1 ih =>
    intro l2 hp hp1 hp2 hanti
    cases l2 with
    | nil =>
      have hlen := hp.length_eq
      simp at hlen
    | cons b t2 =>
      have hab : a = b := by
        by_contra hne
        have hamem : a ∈ b :: t2 := hp.mem_iff.mp (List.mem_cons_self _ _)
        have hat2 : a ∈ t2 := by
          rcases List.mem_cons.mp hamem with h | h
          · exact absurd h hne
          · exact h
        have hbmem : b ∈ a :: t1 := hp.mem_iff.mpr (List.mem_cons_self _ _)
        have hbt1 : b ∈ t1 := by
          rcases List.mem_cons.mp hbmem with h | h
          · exact absurd h.symm hne
          · exact h
        have hRab : R a b := (List.pairwise_cons.mp hp1).1 b hbt1
        have hRba : R b a := (List.pairwise_cons.mp hp2).1 a hat2
        exact hne (hanti a (List.mem_cons_self _ _) b
          (List.mem_cons_of_mem _ hbt1) hRab hRba)
      subst hab
      rw [ih t2 hp.cons_inv (List.pairwise_cons.mp hp1).2
        (List.pairwise_cons.mp hp2).2
        (fun x hx y hy => hanti x (List.mem_cons_of_mem _ hx) y
          (List.mem_cons_of_mem _ hy))]

/-- Distinct members of the merged non-dominated set always differ in
total_distance: equal distances with distinct fingerprints would mean the
cheaper dominates the dearer, which the non-domination filter forbids. -/
theorem mergedNonDominated_dist_inj (archive new_solutions : List Solution)
    (a b : Solution) (ha : a ∈ mergedNonDominated archive new_solutions)
    (hb : b ∈ mergedNonDominated archive new_solutions)
    (hd : a.total_distance = b.total_distance) : a = b := by
  by_contra hne
  have hpw := ndLoop_pairwise (mergedArchiveExt archive new_solutions)
    (mergedArchiveExt archive new_solutions) []
  have hsym : Symmetric
      (fun x y : Solution => get_solution_hash x ≠ get_solution_hash y) :=
    fun x y h hc => h hc.symm
  have hhash := List.Pairwise.forall hsym hpw ha hb hne
  have hc : a.total_cost ≠ b.total_cost := by
    intro hcc
    exact hhash (by unfold get_solution_hash; rw [hd, hcc])
  obtain ⟨hamem, hafeas, hand, _⟩ := ndLoop_mem _ _ _ a ha
  obtain ⟨hbmem, hbfeas, hbnd, _⟩ := ndLoop_mem _ _ _ b hb
  rcases lt_or_gt_of_ne hc with hlt | hgt
  · have hdom : a.dominates b = true := (solution_dominates_iff a b).mpr
      ⟨⟨le_of_eq hd, le_of_lt hlt⟩, Or.inr hlt⟩
    simp [is_non_dominated_no_dom b _ a hbnd hamem hafeas] at hdom
  · have hdom : b.dominates a = true := (solution_dominates_iff b a).mpr
      ⟨⟨le_of_eq hd.symm, le_of_lt hgt⟩, Or.inr hgt⟩
    simp [is_non_dominated_no_dom a _ b hand hbmem hbfeas] at hdom

/-- C4: whenever the merged non-dominated set inside update_archive exceeds
NA solutions, the returned archive is the set sorted ascending on the key
(total_distance, num_vehicles_used, total_cost), truncated to its first NA
elements.  The source sorts on (total_distance, total_cost), but distinct
members of the merged non-dominated set always have distinct total_distance,
so the two stable sorts coincide. -/
theorem update_archive_truncation (na : ℕ) (archive new_solutions : List Solution)
    (h : (mergedNonDominated archive new_solutions).length > na) :
    ((update_archive na archive new_solutions).1).1 =
      ((mergedNonDominated archive new_solutions).mergeSort keyDistVehCost).take na := by
  rw [update_archive_fst, if_pos h]
  congr 1
  apply eq_of_perm_of_pairwise
    (fun x y : Solution => x.total_distance ≤ y.total_distance)
  · exact (List.mergeSort_perm _ keyDistCost).trans
      (List.mergeSort_perm _ keyDistVehCost).symm
  · exact List.Pairwise.imp (fun hxy => keyDistCost_le_dist _ _ hxy)
      (List.sorted_mergeSort keyDistCost_trans keyDistCost_total _)
  · exact List.Pairwise.imp (fun hxy => keyDistVehCost_le_dist _ _ hxy)
      (List.sorted_mergeSort keyDistVehCost_trans keyDistVehCost_total _)
  · intro x hx y hy hxy hyx
    exact mergedNonDominated_dist_inj archive new_solutions x y
      (List.mem_mergeSort.mp hx) (List.mem_mergeSort.mp hy)
      (le_antisymm hxy hyx)

/-- Witness for C4 at na = 1 with the two mutually non-dominated solutions
(100, 50) and (90, 60): the merged set has 2 > 1 members and truncation
applies. -/
theorem update_archive_truncation_witness :
    (mergedNonDominated [] [solA, solB]).length > 1 ∧
      ((update_archive 1 [] [solA, solB]).1).1 =
        ((mergedNonDominated [] [solA, solB]).mergeSort keyDistVehCost).take 1 :=
  ⟨by decide, update_archive_truncation 1 [] [solA, solB] (by decide)⟩

/-- A successful dict lookup returns a stored entry. -/
theorem lookupDecision_mem (cds : List (ℤ × Technology × ℚ)) (i : ℤ)
    (tech : Technology) (e : ℚ)
    (h : lookupDecision cds i = some (tech, e)) : (i, tech, e) ∈ cds := by
  induction cds with
  | nil => cases h
  | cons a rest ih =>
    obtain ⟨k, tech1, e1⟩ := a
    unfold lookupDecision at h
    by_cases hk : k = i
    · rw [if_pos hk] at h
      cases h
      subst hk
      exact List.mem_cons_self _ _
    · rw [if_neg hk] at h
      exact List.mem_cons_of_mem _ (ih h)

/-- With no power-0 technology among the charging decisions, a step of the
Route.evaluate walk never raises. -/
theorem routeStep_ne_err (inst : Instance) (cds : List (ℤ × Technology × ℚ))
    (s : EvalState) (node : Node)
    (hp : ∀ d ∈ cds, d.2.1.power ≠ 0) :
    routeStep inst cds s node ≠ StepRes.err := by
  intro hc
  simp only [routeStep] at hc
  split at hc
  · cases hc
  · split at hc
    · split at hc
      · cases hc
      · cases hc
    · split at hc
      · cases hc
      · rename_i tech e heq
        split at hc
        · cases hc
        · split at hc
          · rename_i hpw
            exact hp _ (lookupDecision_mem cds node.id tech e heq) hpw
          · cases hc

/-- With no power-0 technology among the charging decisions, a step of the
Solution._evaluate_route walk never raises. -/
theorem solRouteStep_ne_err (inst : Instance) (cds : List (ℤ × Technology × ℚ))
    (isLast : Bool) (s : EvalState) (node : Node)
    (hp : ∀ d ∈ cds, d.2.1.power ≠ 0) :
    solRouteStep inst cds isLast s node ≠ StepRes.err := by
  intro hc
  simp only [solRouteStep] at hc
  split at hc
  · cases hc
  · split at hc
    · split at hc
      · cases hc
      · cases hc
    · split at hc
      · split at hc
        · cases hc
        · rename_i tech e heq
          split at hc
          · cases hc
          · split at hc
            · rename_i hpw
              exact hp _ (lookupDecision_mem cds node.id tech e heq) hpw
            · cases hc
      · cases hc

/-- The Route.evaluate walk never raises when no charging decision uses a
power-0 technology. -/
theorem routeLoop_ne_err (inst : Instance) (cds : List (ℤ × Technology × ℚ))
    (hp : ∀ d ∈ cds, d.2.1.power ≠ 0) :
    ∀ (l : List Node) (s : EvalState), routeLoop inst cds s l ≠ StepRes.err := by
  intro l
  induction l with
  | nil =>
    intro s hc
    simp [routeLoop] at hc
  | cons n rest ih =>
    intro s
    unfold routeLoop
    rcases hstep : routeStep inst cds s n with s1 | ⟨d, c⟩ | _
    · exact ih s1
    · intro hc
      cases hc
    · exact absurd hstep (routeStep_ne_err inst cds s n hp)

/-- The Solution._evaluate_route walk never raises when no charging decision
uses a power-0 technology. -/
theorem solRouteLoop_ne_err (inst : Instance) (cds : List (ℤ × Technology × ℚ))
    (hp : ∀ d ∈ cds, d.2.1.power ≠ 0) :
    ∀ (l : List Node) (s : EvalState), solRouteLoop inst cds s l ≠ StepRes.err := by
  intro l
  induction l with
  | nil =>
    intro s hc
    simp [solRouteLoop] at hc
  | cons n rest ih =>
    intro s
    cases rest with
    | nil =>
      show solRouteStep inst cds true s n ≠ StepRes.err
      exact solRouteStep_ne_err inst cds true s n hp
    | cons m rest2 =>
      show (match solRouteStep inst cds false s n with
        | StepRes.ok s1 => solRouteLoop inst cds s1 (m :: rest2)
        | r => r) ≠ StepRes.err
      rcases hstep : solRouteStep inst cds false s n with s1 | ⟨d, c⟩ | _
      · exact ih s1
      · intro hc
        cases hc
      · exact absurd hstep (solRouteStep_ne_err inst cds false s n hp)

/-- Route.evaluate returns a route (no exception) when no charging decision
uses a power-0 technology. -/
theorem route_evaluate_isSome (inst : Instance) (r : Route)
    (hp : ∀ d ∈ r.charging_decisions, d.2.1.power ≠ 0) :
    (Route.evaluate r inst).isSome = true := by
  unfold Route.evaluate
  rcases hn : r.nodes with _ | ⟨first, rest⟩
  · rfl
  · rcases hd : findDepotId inst with _ | depot_id
    · rfl
    · dsimp only
      split_ifs with hcheck
      · rfl
      · rcases hloop : routeLoop inst r.charging_decisions
            { battery := inst.vehicle.battery_capacity, load := 0, time := 0,
              dist := 0, cost := 0, prev := depot_id } rest with s | ⟨d, c⟩ | _
        · rfl
        · rfl
        · exact absurd hloop (routeLoop_ne_err inst r.charging_decisions hp rest _)

/-- Solution._evaluate_route returns a route (no exception) when no charging
decision uses a power-0 technology. -/
theorem evalRouteSol_isSome (inst : Instance) (r : Route)
    (hp : ∀ d ∈ r.charging_decisions, d.2.1.power ≠ 0) :
    (evalRouteSol inst r).isSome = true := by
  unfold evalRouteSol
  rcases hn : r.nodes with _ | ⟨first, rest⟩
  · rfl
  · rcases hd : findDepotId inst with _ | depot_id
    · rfl
    · dsimp only
      split_ifs with hcheck
      · rfl
      · rcases hloop : solRouteLoop inst r.charging_decisions
            { battery := inst.vehicle.battery_capacity, load := 0, time := 0,
              dist := 0, cost := 0, prev := depot_id } rest with s | ⟨d, c⟩ | _
        · rfl
        · rfl
        · exact absurd hloop (solRouteLoop_ne_err inst r.charging_decisions hp rest _)

/-- The per-route loop of Solution.evaluate returns when no route charges
with a power-0 technology. -/
theorem evalRoutes_isSome (inst : Instance) :
    ∀ (routes : List Route),
      (∀ r ∈ routes, ∀ d ∈ r.charging_decisions, d.2.1.power ≠ 0) →
      (evalRoutes inst routes).isSome = true := by
  intro routes
  induction routes with
  | nil => intro _; rfl
  | cons r rest ih =>
    intro hp
    unfold evalRoutes
    rcases hr : evalRouteSol inst r with _ | r1
    · have h1 := evalRouteSol_isSome inst r (hp r (List.mem_cons_self _ _))
      rw [hr] at h1
      cases h1
    · rcases hrest : evalRoutes inst rest with _ | rs
      · have h2 := ih fun r2 hm => hp r2 (List.mem_cons_of_mem _ hm)
        rw [hrest] at h2
        cases h2
      · rfl

/-- Solution.evaluate returns a value whenever every charging decision of
the solution uses a nonzero-power technology. -/
theorem solution_evaluate_isSome (inst : Instance) (s : Solution)
    (hp : goodSolution s) : (Solution.evaluate inst s).isSome = true := by
  unfold Solution.evaluate
  rcases hr : evalRoutes inst s.routes with _ | rs
  · have h1 := evalRoutes_isSome inst s.routes hp
    rw [hr] at h1
    cases h1
  · rfl

unseal Rat.add Rat.mul Rat.sub Rat.inv in
/-- C2 counterexample: the route charging 5 units at the power-0 station
makes both evaluators raise ZeroDivisionError (route.py line 79,
solution.py line 131): the evaluation does not return a result. -/
theorem route_evaluate_raises :
    Route.evaluate r2 inst1 = none ∧ evalRouteSol inst1 r2 = none := by
  exact ⟨by decide, by decide⟩

/-- _improve_solution never touches the evaluation counter: the counter is
incremented once per round by local_search, not per operator call. -/
theorem improveLoop_count (cfg : GVNSConfig) (iterate : Bool) :
    ∀ (fuel : ℕ) (cand : Solution) (idx : ℕ) (st : EngineState)
      (c : Solution) (st1 : EngineState),
      improveLoop cfg iterate fuel cand idx st = .ok (c, st1) →
      st1.evaluation_count = st.evaluation_count := by
  intro fuel
  induction fuel with
  | zero => intro _ _ _ _ _ h; cases h
  | succ fuel ih =>
    intro cand idx st c st1 h
    unfold improveLoop at h
    rcases hm : cfg.local_search_algorithms.get? idx with _ | method
    · simp only [hm] at h
      cases h
      rfl
    · simp only [hm] at h
      rcases hmc : method cand with ⟨improved, cand1⟩
      rw [hmc] at h
      split_ifs at h with hit
      · have h9 := ih _ _ _ _ _ h
        exact h9
      · have h9 := ih _ _ _ _ _ h
        exact h9

/-- local_search never pushes the evaluation counter beyond the budget: a
round is started only while the counter is below max_evaluations. -/
theorem localSearchRounds_count (cfg : GVNSConfig) (fuel : ℕ) (iterate : Bool) :
    ∀ (rounds : ℕ) (cand : Solution) (st : EngineState)
      (sols : List Solution) (st1 : EngineState),
      localSearchRounds cfg fuel iterate rounds cand st = .ok (sols, st1) →
      st1.evaluation_count ≤ Nat.max st.evaluation_count cfg.max_evaluations := by
  intro rounds
  induction rounds with
  | zero =>
    intro cand st sols st1 h
    cases h
    exact Nat.le_max_left _ _
  | succ rounds ih =>
    intro cand st sols st1 h
    unfold localSearchRounds at h
    split_ifs at h with hguard
    · cases h
      exact Nat.le_max_left _ _
    · push_neg at hguard
      rcases him : improveLoop cfg iterate fuel cand 0
          { st with evaluation_count := st.evaluation_count + 1 } with ⟨c1, st2⟩ | _ | _
      · simp only [him] at h
        have h2 := improveLoop_count cfg iterate fuel cand 0 _ c1 st2 him
        dsimp only at h2
        rcases he : Solution.evaluate cfg.inst c1 with _ | c2
        · simp only [he] at h
          cases h
        · simp only [he] at h
          rcases hrec : localSearchRounds cfg fuel iterate rounds c2 st2 with ⟨sols3, st3⟩ | _ | _
          · simp only [hrec] at h
            have h3 := ih c2 st2 sols3 st3 hrec
            cases h
            have hm1 : Nat.max st2.evaluation_count cfg.max_evaluations
                = cfg.max_evaluations := Nat.max_eq_right (by omega)
            have hm2 : Nat.max st.evaluation_count cfg.max_evaluations
                = cfg.max_evaluations := Nat.max_eq_right (by omega)
            rw [hm1] at h3
            rw [hm2]
            exact h3
          · simp only [hrec] at h
            cases h
          · simp only [hrec] at h
            cases h
      · simp only [him] at h
        cases h
      · simp only [him] at h
        cases h

/-- perturbation adds exactly one counter increment per configured
perturbation method, with no budget check. -/
theorem perturbationChain_count (cfg : GVNSConfig) :
    ∀ (ops : List (Solution → Solution)) (x : Solution) (st : EngineState)
      (y : Solution) (st1 : EngineState),
      perturbationChain cfg ops x st = .ok (y, st1) →
      st1.evaluation_count = st.evaluation_count + ops.length := by
  intro ops
  induction ops with
  | nil =>
    intro x st y st1 h
    cases h
    simp
  | cons op rest ih =>
    intro x st y st1 h
    unfold perturbationChain at h
    rcases he : Solution.evaluate cfg.inst (op x) with _ | z
    · simp only [he] at h
      cases h
    · simp only [he] at h
      have h2 := ih _ _ _ _ h
      dsimp only at h2
      simp only [List.length_cons]
      omega

/-- The seeding pass keeps the counter at or below the budget. -/
theorem seedArchive_count (cfg : GVNSConfig) (fuel : ℕ) :
    ∀ (pop archive : List Solution) (st : EngineState)
      (a1 : List Solution) (st1 : EngineState),
      seedArchive cfg fuel pop archive st = .ok (a1, st1) →
      st1.evaluation_count ≤ Nat.max st.evaluation_count cfg.max_evaluations := by
  intro pop
  induction pop with
  | nil =>
    intro archive st a1 st1 h
    cases h
    exact Nat.le_max_left _ _
  | cons sol rest ih =>
    intro archive st a1 st1 h
    unfold seedArchive at h
    split_ifs at h with hfeas
    · exact ih _ _ _ _ h
    · rcases hls : localSearchRounds cfg fuel false cfg.ns sol st with ⟨sols, st2⟩ | _ | _
      · simp only [hls] at h
        have hb := localSearchRounds_count cfg fuel false cfg.ns sol st sols st2 hls
        split_ifs at h with hstop
        · cases h
          exact hb
        · have h2 := ih _ _ _ _ h
          exact le_trans h2 (Nat.max_le.mpr ⟨hb, Nat.le_max_right _ _⟩)
      · simp only [hls] at h
        cases h
      · simp only [hls] at h
        cases h

/-- The inner retry loop keeps the counter at or below the budget plus the
number of perturbation methods: an iteration starts only with the counter
below the budget, and only the unchecked perturbation chain can overshoot. -/
theorem innerLoop_count (cfg : GVNSConfig) (fuel : ℕ) (x : Solution) :
    ∀ (tries : ℕ) (archive : List Solution) (changed : Bool) (st : EngineState)
      (a1 : List Solution) (c1 : Bool) (st1 : EngineState),
      st.evaluation_count ≤ cfg.max_evaluations + cfg.pertubation_algorithms.length →
      innerLoop cfg fuel x tries archive changed st = .ok (a1, c1, st1) →
      st1.evaluation_count ≤ cfg.max_evaluations + cfg.pertubation_algorithms.length := by
  intro tries
  induction tries with
  | zero =>
    intro archive changed st a1 c1 st1 hb h
    cases h
    exact hb
  | succ tries ih =>
    intro archive changed st a1 c1 st1 hb h
    unfold innerLoop at h
    split_ifs at h with hstop
    · cases h
      exact hb
    · push_neg at hstop
      obtain ⟨hch, hlt⟩ := hstop
      rcases hp : perturbationChain cfg cfg.pertubation_algorithms x st with ⟨x1, st2⟩ | _ | _
      · simp only [hp] at h
        have hc2 := perturbationChain_count cfg _ _ _ _ _ hp
        rcases hls : localSearchRounds cfg fuel true cfg.ns x1 st2 with ⟨sols, st3⟩ | _ | _
        · simp only [hls] at h
          have hc3 := localSearchRounds_count cfg fuel true cfg.ns x1 st2 sols st3 hls
          refine ih _ _ _ _ _ _ (le_trans hc3 (Nat.max_le.mpr ⟨by omega, by omega⟩)) h
        · simp only [hls] at h
          cases h
        · simp only [hls] at h
          cases h
      · simp only [hp] at h
        cases h
      · simp only [hp] at h
        cases h

/-- The outer loop keeps the counter at or below the budget plus the number
of perturbation methods. -/
theorem mainLoop_count (cfg : GVNSConfig) (fuel : ℕ) (rand : ℕ → ℕ) :
    ∀ (f t : ℕ) (archive : List Solution) (st : EngineState)
      (a1 : List Solution) (st1 : EngineState),
      st.evaluation_count ≤ cfg.max_evaluations + cfg.pertubation_algorithms.length →
      mainLoop cfg fuel rand f t archive st = .ok (a1, st1) →
      st1.evaluation_count ≤ cfg.max_evaluations + cfg.pertubation_algorithms.length := by
  intro f
  induction f with
  | zero =>
    intro t archive st a1 st1 hb h
    cases h
  | succ f ih =>
    intro t archive st a1 st1 hb h
    unfold mainLoop at h
    dsimp only at h
    split_ifs at h with h1 h2 h3
    · cases h
      exact hb
    · cases h
      exact hb
    · cases h
      exact hb
    ·
      rcases hi : innerLoop cfg fuel
          ((archive.filter Solution.is_feasible).getD
            (rand t % (archive.filter Solution.is_feasible).length) default)
          cfg.ls_max_iter archive false st with ⟨a2, c2, st2⟩ | _ | _
      · simp only [hi] at h
        exact ih _ _ _ _ _ (innerLoop_count cfg fuel _ _ _ _ _ _ _ _ hb hi) h
      · simp only [hi] at h
        cases h
      · simp only [hi] at h
        cases h

/-- C5 amended: Engine.run stops starting new local-search rounds once the
evaluation counter reaches max_evaluations, but a perturbation chain in
progress still invokes every configured perturbation method without checking
the cap, and one counted local-search round invokes every configured
local-search algorithm; hence the evaluation counter on any completed run is
bounded by max_evaluations plus the number of perturbation methods, not by
max_evaluations. -/
theorem run_evaluation_count_bound (cfg : GVNSConfig) (fuel : ℕ) (rand : ℕ → ℕ)
    (pop res : List Solution) (st : EngineState)
    (h : GVNS.run cfg fuel rand pop = .ok (res, st)) :
    st.evaluation_count ≤ cfg.max_evaluations + cfg.pertubation_algorithms.length := by
  unfold GVNS.run at h
  rcases hs : seedArchive cfg fuel pop [] ⟨0, 0⟩ with ⟨a1, st1⟩ | _ | _
  · simp only [hs] at h
    have hb := seedArchive_count cfg fuel pop [] ⟨0, 0⟩ a1 st1 hs
    have hb2 : st1.evaluation_count ≤ cfg.max_evaluations := by
      have hz : Nat.max (EngineState.evaluation_count ⟨0, 0⟩) cfg.max_evaluations
          = cfg.max_evaluations := Nat.max_eq_right (Nat.zero_le _)
      rw [hz] at hb
      exact hb
    split_ifs at h with hempty
    · cases h
      omega
    · exact mainLoop_count cfg fuel rand fuel 0 a1 st1 res st (by omega) h
  · simp only [hs] at h
    cases h
  · simp only [hs] at h
    cases h

/-- C5 counterexample: with two local-search methods, ns = 1 and
max_evaluations = 1, a run issues 2 operator invocations — the single
counted local-search round calls both configured methods after the counter
has already reached the cap of 1 — so run does not keep operator
invocations within max_evaluations. -/
theorem run_budget_counterexample :
    GVNS.run cfg5 10 (fun _ => 0) [sol0] = .ok ([sol0], ⟨1, 2⟩) ∧
      ¬ (2 ≤ cfg5.max_evaluations) :=
  ⟨by decide, by decide⟩

/-- Witness for the amended C5 theorem on the concrete configuration cfg5:
the completed run carries evaluation counter 1 ≤ 1 + 0. -/
theorem run_evaluation_count_bound_witness :
    GVNS.run cfg5 10 (fun _ => 0) [sol0] = .ok ([sol0], ⟨1, 2⟩) ∧
      (1 : ℕ) ≤ cfg5.max_evaluations + cfg5.pertubation_algorithms.length := by
  refine ⟨by decide, ?_⟩
  have h := run_evaluation_count_bound cfg5 10 (fun _ => 0) [sol0] [sol0] ⟨1, 2⟩ (by decide)
  exact h

/-- Battery nonnegativity after a successful step: the battery check makes
the post-travel level nonnegative, and charging (with nonnegative energy,
against a nonnegative capacity) keeps it nonnegative. -/
theorem routeStep_battery (inst : Instance) (cds : List (ℤ × Technology × ℚ))
    (s : EvalState) (node : Node) (s1 : EvalState)
    (hch : ∀ d ∈ cds, 0 ≤ d.2.2)
    (hcap : 0 ≤ inst.vehicle.battery_capacity)
    (h : routeStep inst cds s node = .ok s1) : 0 ≤ s1.battery := by
  simp only [routeStep] at h
  split_ifs at h with h1 h2 h3
  · cases h
    dsimp only
    rw [not_lt] at h1
    linarith
  · rcases hlk : lookupDecision cds node.id with _ | ⟨tech, e⟩ <;>
      simp only [hlk] at h
    · cases h
      dsimp only
      rw [not_lt] at h1
      linarith
    · split_ifs at h with h4 h5
      cases h
      dsimp only
      rw [not_lt] at h1
      have he := hch _ (lookupDecision_mem cds node.id tech e hlk)
      exact le_min (by linarith [he]) hcap

/-- Load bound after a successful step at a customer node: the capacity
check makes the post-service load at most the vehicle capacity. -/
theorem routeStep_load (inst : Instance) (cds : List (ℤ × Technology × ℚ))
    (s : EvalState) (node : Node) (s1 : EvalState)
    (hcust : node.type = NodeType.CUSTOMER)
    (h : routeStep inst cds s node = .ok s1) :
    s1.load ≤ inst.vehicle.capacity := by
  simp only [routeStep] at h
  split_ifs at h with h1 h2
  cases h
  dsimp only
  rw [not_lt] at h2
  exact h2

/-- Time monotonicity of a successful step under nonnegative travel times,
service time, fixed charging time and charge energies. -/
theorem routeStep_time (inst : Instance) (cds : List (ℤ × Technology × ℚ))
    (s : EvalState) (node : Node) (s1 : EvalState)
    (htime : ∀ i j, 0 ≤ inst.time_matrix i j)
    (hserv : 0 ≤ node.service_time)
    (hfix : 0 ≤ inst.charging_fixed_time)
    (hch : ∀ d ∈ cds, 0 ≤ d.2.2 ∧ 0 < d.2.1.power)
    (h : routeStep inst cds s node = .ok s1) : s.time ≤ s1.time := by
  simp only [routeStep] at h
  split_ifs at h with h1 h2 h3
  · cases h
    dsimp only
    have ht := htime s.prev node.id
    linarith
  · rcases hlk : lookupDecision cds node.id with _ | ⟨tech, e⟩ <;>
      simp only [hlk] at h
    · cases h
      dsimp only
      have ht := htime s.prev node.id
      linarith
    · split_ifs at h with h4 h5
      cases h
      dsimp only
      have ht := htime s.prev node.id
      have he := hch _ (lookupDecision_mem cds node.id tech e hlk)
      have hdiv : 0 ≤ e / tech.power := div_nonneg he.1 (le_of_lt he.2)
      linarith

/-- Time never decreases along a successful walk. -/
theorem routeLoop_time (inst : Instance) (cds : List (ℤ × Technology × ℚ))
    (htime : ∀ i j, 0 ≤ inst.time_matrix i j)
    (hfix : 0 ≤ inst.charging_fixed_time)
    (hch : ∀ d ∈ cds, 0 ≤ d.2.2 ∧ 0 < d.2.1.power) :
    ∀ (l : List Node) (s sfin : EvalState),
      (∀ n ∈ l, 0 ≤ n.service_time) →
      routeLoop inst cds s l = .ok sfin → s.time ≤ sfin.time := by
  intro l
  induction l with
  | nil =>
    intro s sfin _ h
    cases h
    exact le_refl _
  | cons n rest ih =>
    intro s sfin hserv h
    unfold routeLoop at h
    rcases hstep : routeStep inst cds s n with s1 | ⟨d, c⟩ | _ <;>
      simp only [hstep] at h
    · exact le_trans
        (routeStep_time inst cds s n s1 htime (hserv n (List.mem_cons_self _ _)) hfix hch hstep)
        (ih s1 sfin (fun m hm => hserv m (List.mem_cons_of_mem _ hm)) h)
    · cases h
    · cases h

/-- Replay invariants along a successful walk: every state of the trace has
nonnegative battery, respects the capacity bound at customers, and its
elapsed time is bounded by the final time. -/
theorem routeTraceAux_props (inst : Instance) (cds : List (ℤ × Technology × ℚ))
    (hch : ∀ d ∈ cds, 0 ≤ d.2.2 ∧ 0 < d.2.1.power)
    (hcap : 0 ≤ inst.vehicle.battery_capacity)
    (htime : ∀ i j, 0 ≤ inst.time_matrix i j)
    (hfix : 0 ≤ inst.charging_fixed_time) :
    ∀ (l : List Node) (s sfin : EvalState),
      (∀ n ∈ l, 0 ≤ n.service_time) →
      routeLoop inst cds s l = .ok sfin →
      ∀ p ∈ routeTraceAux inst cds s l,
        0 ≤ p.2.battery ∧
        (p.1.type = NodeType.CUSTOMER → p.2.load ≤ inst.vehicle.capacity) ∧
        p.2.time ≤ sfin.time := by
  intro l
  induction l with
  | nil =>
    intro s sfin _ _ p hp
    simp [routeTraceAux] at hp
  | cons n rest ih =>
    intro s sfin hserv hloop p hp
    unfold routeLoop at hloop
    unfold routeTraceAux at hp
    rcases hstep : routeStep inst cds s n with s1 | ⟨d, c⟩ | _ <;>
      simp only [hstep] at hloop hp
    · rcases List.mem_cons.mp hp with rfl | hp1
      · refine ⟨routeStep_battery inst cds s n s1 (fun d hd => (hch d hd).1) hcap hstep, ?_, ?_⟩
        · intro hcust
          exact routeStep_load inst cds s n s1 hcust hstep
        · exact routeLoop_time inst cds htime hfix hch rest s1 sfin
            (fun m hm => hserv m (List.mem_cons_of_mem _ hm)) hloop
      · exact ih s1 sfin (fun m hm => hserv m (List.mem_cons_of_mem _ hm)) hloop p hp1
    · cases hloop
    · cases hloop

/-- C6: for every route the evaluator marks feasible, replaying the
node-by-node simulation shows battery at least 0 after every hop, cumulative
load at most the vehicle capacity at every customer, and cumulative elapsed
time at most the max route duration at every step; constraint violations
mark the route infeasible and stop the walk instead of raising (the
nonnegativity hypotheses state that the instance data — travel times,
service times, fixed charging time, charge energies, powers and battery
capacity — are physical, as in every parsed instance). -/
theorem route_eval_sound (inst : Instance) (r : Route) (r1 : Route)
    (htime : ∀ i j, 0 ≤ inst.time_matrix i j)
    (hserv : ∀ n ∈ r.nodes, 0 ≤ n.service_time)
    (hfix : 0 ≤ inst.charging_fixed_time)
    (hch : ∀ d ∈ r.charging_decisions, 0 ≤ d.2.2 ∧ 0 < d.2.1.power)
    (hcap : 0 ≤ inst.vehicle.battery_capacity)
    (heval : Route.evaluate r inst = some r1)
    (hfeas : r1.is_feasible = true) :
    ∀ p ∈ routeTrace inst r,
      0 ≤ p.2.battery ∧
      (p.1.type = NodeType.CUSTOMER → p.2.load ≤ inst.vehicle.capacity) ∧
      p.2.time ≤ inst.max_route_duration := by
  unfold Route.evaluate at heval
  unfold routeTrace
  rcases hn : r.nodes with _ | ⟨first, rest⟩ <;> rw [hn] at heval hserv
  · intro p hp
    simp at hp
  · rcases hd : findDepotId inst with _ | depot_id <;> simp only [hd] at heval ⊢
    · cases heval
      simp at hfeas
    · split_ifs at heval with hend
      · cases heval
        simp at hfeas
      · rcases hloop : routeLoop inst r.charging_decisions
            { battery := inst.vehicle.battery_capacity, load := 0, time := 0,
              dist := 0, cost := 0, prev := depot_id } rest with sfin | ⟨d, c⟩ | _ <;>
          simp only [hloop] at heval
        · cases heval
          simp only [Bool.not_eq_true', decide_eq_false_iff_not, not_lt] at hfeas
          intro p hp
          obtain ⟨hb, hl, ht⟩ := routeTraceAux_props inst r.charging_decisions hch hcap
            htime hfix rest _ sfin
            (fun m hm => hserv m (List.mem_cons_of_mem _ hm)) hloop p hp
          exact ⟨hb, hl, le_trans ht hfeas⟩
        · cases heval
          simp at hfeas
        · cases heval

unseal Rat.add Rat.mul Rat.sub Rat.inv in
/-- Witness for C6 on the route r3 (depot, station with a 4-unit charge,
customer, depot) over inst2: the evaluator returns the feasible route r3e
and the replay invariants hold along its trace. -/
theorem route_eval_sound_witness :
    Route.evaluate r3 inst2 = some r3e ∧ r3e.is_feasible = true ∧
      ∀ p ∈ routeTrace inst2 r3,
        0 ≤ p.2.battery ∧
        (p.1.type = NodeType.CUSTOMER → p.2.load ≤ inst2.vehicle.capacity) ∧
        p.2.time ≤ inst2.max_route_duration :=
  ⟨by decide, rfl,
    route_eval_sound inst2 r3 r3e (fun _ _ => zero_le_one) (by decide)
      zero_le_one (by decide) (by decide) (by decide) rfl⟩

/-- The two per-node steps agree on every node that is not a depot carrying
a charging decision: customers and stations take literally the same
branches, and a depot without a decision charges in neither walk. -/
theorem solRouteStep_eq_routeStep (inst : Instance)
    (cds : List (ℤ × Technology × ℚ)) (isLast : Bool) (s : EvalState)
    (node : Node)
    (hdep : node.type = NodeType.DEPOT → lookupDecision cds node.id = none) :
    solRouteStep inst cds isLast s node = routeStep inst cds s node := by
  simp only [solRouteStep, routeStep]
  by_cases hb : s.battery < inst.distance_matrix s.prev node.id * inst.vehicle.consumption_rate
  · rw [if_pos hb, if_pos hb]
  · rw [if_neg hb, if_neg hb]
    by_cases hc : node.type = NodeType.CUSTOMER
    · rw [if_pos hc, if_pos hc]
    · rw [if_neg hc, if_neg hc]
      rcases hty : node.type with _ | _ | _
      · rw [hdep hty]
        by_cases hg : NodeType.DEPOT = NodeType.STATION ∨
            (NodeType.DEPOT = NodeType.DEPOT ∧ isLast = false)
        · rw [if_pos hg]
        · rw [if_neg hg]
      · exact absurd hty hc
      · have hg : NodeType.STATION = NodeType.STATION ∨
            (NodeType.STATION = NodeType.DEPOT ∧ isLast = false) := Or.inl rfl
        rw [if_pos hg]
        rcases hlk : lookupDecision cds node.id with _ | ⟨tech, e⟩ <;>
          simp only [hlk]
        have hfound : solTechFound inst node tech =
            (node.technologies.any fun t => decide (t.id = tech.id)) := by
          unfold solTechFound
          rw [if_pos hty]
        rw [hfound]

/-- The two walks agree on every route whose depot nodes carry no charging
decision. -/
theorem solRouteLoop_eq (inst : Instance) (cds : List (ℤ × Technology × ℚ)) :
    ∀ (l : List Node),
      (∀ n ∈ l, n.type = NodeType.DEPOT → lookupDecision cds n.id = none) →
      ∀ (s : EvalState), solRouteLoop inst cds s l = routeLoop inst cds s l := by
  intro l
  induction l with
  | nil => intro _ s; rfl
  | cons n rest ih =>
    intro hdep s
    cases rest with
    | nil =>
      show solRouteStep inst cds true s n =
        (match routeStep inst cds s n with
          | StepRes.ok s1 => routeLoop inst cds s1 []
          | r => r)
      rw [solRouteStep_eq_routeStep inst cds true s n
        (hdep n (List.mem_cons_self _ _))]
      rcases routeStep inst cds s n with s1 | ⟨d, c⟩ | _ <;> rfl
    | cons m rest2 =>
      show (match solRouteStep inst cds false s n with
          | StepRes.ok s1 => solRouteLoop inst cds s1 (m :: rest2)
          | r => r) =
        (match routeStep inst cds s n with
          | StepRes.ok s1 => routeLoop inst cds s1 (m :: rest2)
          | r => r)
      rw [solRouteStep_eq_routeStep inst cds false s n
        (hdep n (List.mem_cons_self _ _))]
      rcases routeStep inst cds s n with s1 | ⟨d, c⟩ | _
      · exact ih (fun x hx => hdep x (List.mem_cons_of_mem _ hx)) s1
      · rfl
      · rfl

/-- The final battery of a successful walk is nonnegative when it starts
nonnegative. -/
theorem routeLoop_battery_final (inst : Instance)
    (cds : List (ℤ × Technology × ℚ))
    (hch : ∀ d ∈ cds, 0 ≤ d.2.2) (hcap : 0 ≤ inst.vehicle.battery_capacity) :
    ∀ (l : List Node) (s sfin : EvalState), 0 ≤ s.battery →
      routeLoop inst cds s l = .ok sfin → 0 ≤ sfin.battery := by
  intro l
  induction l with
  | nil =>
    intro s sfin hs h
    cases h
    exact hs
  | cons n rest ih =>
    intro s sfin hs h
    unfold routeLoop at h
    rcases hstep : routeStep inst cds s n with s1 | ⟨d, c⟩ | _ <;>
      simp only [hstep] at h
    · exact ih s1 sfin (routeStep_battery inst cds s n s1 hch hcap hstep) h
    · cases h
    · cases h

/-- Solution._evaluate_route computes exactly what Route.evaluate computes on
a route whose depot nodes carry no charging decision, when charge energies
are nonnegative (so the end-of-walk battery tolerance check never fires). -/
theorem evalRouteSol_eq_evaluate (inst : Instance) (r : Route)
    (hdep : ∀ n ∈ r.nodes, n.type = NodeType.DEPOT →
      lookupDecision r.charging_decisions n.id = none)
    (hch : ∀ d ∈ r.charging_decisions, 0 ≤ d.2.2)
    (hcap : 0 ≤ inst.vehicle.battery_capacity) :
    evalRouteSol inst r = Route.evaluate r inst := by
  unfold evalRouteSol Route.evaluate
  rcases hn : r.nodes with _ | ⟨first, rest⟩
  · rfl
  · rw [hn] at hdep
    rcases hd : findDepotId inst with _ | depot_id
    · rfl
    · dsimp only
      split_ifs with hend
      · rfl
      · rw [solRouteLoop_eq inst r.charging_decisions rest
          (fun n hnm => hdep n (List.mem_cons_of_mem _ hnm))]
        rcases hloop : routeLoop inst r.charging_decisions
            { battery := inst.vehicle.battery_capacity, load := 0, time := 0,
              dist := 0, cost := 0, prev := depot_id } rest with sfin | ⟨d, c⟩ | _ <;>
          simp only [hloop]
        · have hbat : 0 ≤ sfin.battery :=
            routeLoop_battery_final inst r.charging_decisions hch hcap rest _ sfin hcap hloop
          have hdec : decide (sfin.battery < -(1/1000 : ℚ)) = false := by
            rw [decide_eq_false_iff_not]
            intro hlt
            have : (0 : ℚ) < -(1/1000) := lt_of_le_of_lt hbat hlt
            norm_num at this
          rw [hdec]
          simp only [Bool.not_false, Bool.and_true]

/-- The per-route loop of Solution.evaluate is the monadic map of the
standalone route evaluator when the two per-route evaluations agree. -/
theorem evalRoutes_eq_mapM (inst : Instance) :
    ∀ (routes : List Route),
      (∀ r ∈ routes, evalRouteSol inst r = Route.evaluate r inst) →
      evalRoutes inst routes = routes.mapM fun r => Route.evaluate r inst := by
  intro routes
  induction routes with
  | nil => intro _; rfl
  | cons r rest ih =>
    intro hyp
    unfold evalRoutes
    rw [List.mapM_cons, hyp r (List.mem_cons_self _ _),
      ← ih fun x hx => hyp x (List.mem_cons_of_mem _ hx)]
    rcases Route.evaluate r inst with _ | r1
    · rfl
    · rcases evalRoutes inst rest with _ | rs <;> rfl

unseal Rat.add Rat.mul Rat.sub Rat.inv in
/-- C7 counterexample: on the route that records a charging decision for the
depot id, Route.evaluate applies the charge at the final depot (cost
5 * 1 + 2 = 7) while Solution._evaluate_route skips charging at the last
node (cost 0): the two per-route simulations are not the same. -/
theorem solution_route_eval_differs :
    (Route.evaluate r1 inst0).map Route.total_cost = some 7 ∧
      (evalRouteSol inst0 r1).map Route.total_cost = some 0 ∧
      evalRouteSol inst0 r1 ≠ Route.evaluate r1 inst0 :=
  ⟨by decide, by decide, by decide⟩

/-- C7 amended: for solutions none of whose routes record a charging
decision on a depot node (so the final-depot divergence and the
depot-technology-lookup divergence cannot fire) and whose charge energies
are nonnegative, Solution.evaluate computes each route with exactly the
standalone Route evaluator, sums the per-route distance and cost into the
solution totals, sets num_vehicles_used to the number of routes, and marks
the solution feasible exactly when the vehicle bound, all route feasibility
flags, and the customer-coverage check hold. -/
theorem solution_eval_refines_route_eval (inst : Instance) (s : Solution)
    (s1 : Solution)
    (hdep : ∀ r ∈ s.routes, ∀ n ∈ r.nodes, n.type = NodeType.DEPOT →
      lookupDecision r.charging_decisions n.id = none)
    (hch : ∀ r ∈ s.routes, ∀ d ∈ r.charging_decisions, 0 ≤ d.2.2)
    (hcap : 0 ≤ inst.vehicle.battery_capacity)
    (heval : Solution.evaluate inst s = some s1) :
    (∀ r ∈ s.routes, evalRouteSol inst r = Route.evaluate r inst) ∧
      ∃ rs, (s.routes.mapM fun r => Route.evaluate r inst) = some rs ∧
        s1.routes = rs ∧
        s1.total_distance = (rs.map Route.total_distance).sum ∧
        s1.total_cost = (rs.map Route.total_cost).sum ∧
        s1.num_vehicles_used = s.routes.length ∧
        (s1.is_feasible = true ↔
          s.routes.length ≤ inst.num_vehicles ∧
          (∀ r1 ∈ rs, r1.is_feasible = true) ∧
          idSetEq (servedCustomerIds rs) (allCustomerIds inst) = true) := by
  have hagree : ∀ r ∈ s.routes, evalRouteSol inst r = Route.evaluate r inst :=
    fun r hr => evalRouteSol_eq_evaluate inst r (hdep r hr) (hch r hr) hcap
  refine ⟨hagree, ?_⟩
  have hmm : evalRoutes inst s.routes = s.routes.mapM fun r => Route.evaluate r inst :=
    evalRoutes_eq_mapM inst s.routes hagree
  unfold Solution.evaluate at heval
  rcases hrs : evalRoutes inst s.routes with _ | rs <;> simp only [hrs] at heval
  · cases heval
  · refine ⟨rs, by rw [← hmm, hrs], ?_⟩
    cases heval
    refine ⟨rfl, rfl, rfl, rfl, ?_⟩
    dsimp only
    simp only [Bool.and_eq_true, Bool.not_eq_true', decide_eq_false_iff_not,
      not_lt, List.all_eq_true, and_assoc]

unseal Rat.add Rat.mul Rat.sub Rat.inv in
/-- Witness for the amended C7 theorem on the one-route solution sol7 over
inst0. -/
theorem solution_eval_refines_route_eval_witness :
    Solution.evaluate inst0 sol7 = some sol7e ∧
      (∀ r ∈ sol7.routes, evalRouteSol inst0 r = Route.evaluate r inst0) ∧
      ∃ rs, (sol7.routes.mapM fun r => Route.evaluate r inst0) = some rs ∧
        sol7e.routes = rs ∧
        sol7e.total_distance = (rs.map Route.total_distance).sum ∧
        sol7e.total_cost = (rs.map Route.total_cost).sum ∧
        sol7e.num_vehicles_used = sol7.routes.length ∧
        (sol7e.is_feasible = true ↔
          sol7.routes.length ≤ inst0.num_vehicles ∧
          (∀ r1 ∈ rs, r1.is_feasible = true) ∧
          idSetEq (servedCustomerIds rs) (allCustomerIds inst0) = true) := by
  have h := solution_eval_refines_route_eval inst0 sol7 sol7e (by decide)
    (by decide) (by decide) (by decide)
  exact ⟨by decide, h.1, h.2⟩

/-!  Exception-freedom of the engine.  evalRouteSol rewrites only the metric
fields of a route, so evaluation preserves the charging decisions and with
them the nonzero-power guard; threading the guard through the engine loops
shows that run never propagates an exception. -/

/-- _evaluate_route never touches the charging decisions of its route. -/
theorem evalRouteSol_decisions (inst : Instance) (r r1 : Route)
    (h : evalRouteSol inst r = some r1) :
    r1.charging_decisions = r.charging_decisions := by
  unfold evalRouteSol at h
  rcases hn : r.nodes with _ | ⟨first, rest⟩ <;> simp only [hn] at h
  · cases h
    rfl
  · rcases hd : findDepotId inst with _ | depot_id <;> simp only [hd] at h
    · cases h
      rfl
    · split_ifs at h with hend
      · cases h
        rfl
      · rcases hloop : solRouteLoop inst r.charging_decisions
            { battery := inst.vehicle.battery_capacity, load := 0, time := 0,
              dist := 0, cost := 0, prev := depot_id } rest with s | ⟨d, c⟩ | _ <;>
          simp only [hloop] at h
        · cases h
          rfl
        · cases h
          rfl
        · cases h

/-- The per-route loop of Solution.evaluate maps routes to routes with the
same charging decisions. -/
theorem evalRoutes_decisions (inst : Instance) :
    ∀ (routes rs : List Route), evalRoutes inst routes = some rs →
      ∀ r1 ∈ rs, ∃ r ∈ routes, r1.charging_decisions = r.charging_decisions := by
  intro routes
  induction routes with
  | nil =>
    intro rs h r1 hr1
    unfold evalRoutes at h
    cases h
    cases hr1
  | cons r rest ih =>
    intro rs h r1 hr1
    unfold evalRoutes at h
    rcases he : evalRouteSol inst r with _ | r2 <;> simp only [he] at h
    · cases h
    · rcases hrest : evalRoutes inst rest with _ | rs2 <;> simp only [hrest] at h
      · cases h
      · cases h
        rcases List.mem_cons.mp hr1 with rfl | hmem
        · exact ⟨r, List.mem_cons_self _ _, evalRouteSol_decisions inst r _ he⟩
        · obtain ⟨r3, hr3, heq⟩ := ih rs2 hrest r1 hmem
          exact ⟨r3, List.mem_cons_of_mem _ hr3, heq⟩

/-- Solution.evaluate preserves the nonzero-power guard. -/
theorem solution_evaluate_good (inst : Instance) (s s1 : Solution)
    (hg : goodSolution s) (h : Solution.evaluate inst s = some s1) :
    goodSolution s1 := by
  unfold Solution.evaluate at h
  rcases hrs : evalRoutes inst s.routes with _ | rs <;> simp only [hrs] at h
  · cases h
  · cases h
    intro r1 hr1 d hd
    obtain ⟨r, hrm, heq⟩ := evalRoutes_decisions inst s.routes rs hrs r1 hr1
    exact hg r hrm d (heq ▸ hd)

/-- _improve_solution never raises: every local-search method is modelled as
a total function on solutions. -/
theorem improveLoop_ne_exn (cfg : GVNSConfig) (iterate : Bool) :
    ∀ (fuel : ℕ) (cand : Solution) (idx : ℕ) (st : EngineState),
      improveLoop cfg iterate fuel cand idx st ≠ RunRes.exn := by
  intro fuel
  induction fuel with
  | zero =>
    intro cand idx st hc
    cases hc
  | succ fuel ih =>
    intro cand idx st hc
    unfold improveLoop at hc
    rcases hm : cfg.local_search_algorithms.get? idx with _ | method <;>
      simp only [hm] at hc
    · cases hc
    · rcases hmc : method cand with ⟨improved, cand1⟩
      rw [hmc] at hc
      split_ifs at hc with hit
      · exact ih cand1 0 _ hc
      · exact ih cand1 (idx + 1) _ hc

/-- _improve_solution preserves the nonzero-power guard when every
local-search method does. -/
theorem improveLoop_good (cfg : GVNSConfig) (iterate : Bool)
    (hlsp : ∀ op ∈ cfg.local_search_algorithms, ∀ x, goodSolution x →
      goodSolution (op x).2) :
    ∀ (fuel : ℕ) (cand : Solution) (idx : ℕ) (st : EngineState)
      (c : Solution) (st1 : EngineState), goodSolution cand →
      improveLoop cfg iterate fuel cand idx st = .ok (c, st1) →
      goodSolution c := by
  intro fuel
  induction fuel with
  | zero =>
    intro cand idx st c st1 _ h
    cases h
  | succ fuel ih =>
    intro cand idx st c st1 hg h
    unfold improveLoop at h
    rcases hm : cfg.local_search_algorithms.get? idx with _ | method <;>
      simp only [hm] at h
    · cases h
      exact hg
    · rcases hmc : method cand with ⟨improved, cand1⟩
      rw [hmc] at h
      have hg1 : goodSolution cand1 := by
        have h2 := hlsp method (List.get?_mem hm) cand hg
        rw [hmc] at h2
        exact h2
      split_ifs at h with hit
      · exact ih cand1 0 _ c st1 hg1 h
      · exact ih cand1 (idx + 1) _ c st1 hg1 h

/-- local_search never raises when the candidate satisfies the nonzero-power
guard and the local-search methods preserve it: the only exception source is
Solution.evaluate, which then always returns. -/
theorem localSearchRounds_ne_exn (cfg : GVNSConfig) (fuel : ℕ) (iterate : Bool)
    (hlsp : ∀ op ∈ cfg.local_search_algorithms, ∀ x, goodSolution x →
      goodSolution (op x).2) :
    ∀ (rounds : ℕ) (cand : Solution) (st : EngineState), goodSolution cand →
      localSearchRounds cfg fuel iterate rounds cand st ≠ RunRes.exn := by
  intro rounds
  induction rounds with
  | zero =>
    intro cand st _ hc
    cases hc
  | succ rounds ih =>
    intro cand st hg hc
    unfold localSearchRounds at hc
    split_ifs at hc with hguard
    rcases him : improveLoop cfg iterate fuel cand 0
        { st with evaluation_count := st.evaluation_count + 1 } with ⟨c1, st2⟩ | _ | _
    · simp only [him] at hc
      have hg1 := improveLoop_good cfg iterate hlsp fuel cand 0
        { st with evaluation_count := st.evaluation_count + 1 } c1 st2 hg him
      rcases he : Solution.evaluate cfg.inst c1 with _ | c2
      · have h2 := solution_evaluate_isSome cfg.inst c1 hg1
        rw [he] at h2
        cases h2
      · simp only [he] at hc
        rcases hrec : localSearchRounds cfg fuel iterate rounds c2 st2 with ⟨sols3, st3⟩ | _ | _
        · simp only [hrec] at hc
          cases hc
        · simp only [hrec] at hc
          exact ih c2 st2 (solution_evaluate_good cfg.inst c1 c2 hg1 he) hrec
        · simp only [hrec] at hc
          cases hc
    · simp only [him] at hc
      exact improveLoop_ne_exn cfg iterate fuel cand 0 _ him
    · simp only [him] at hc
      cases hc

/-- Every solution local_search collects satisfies the nonzero-power guard
when its candidate does and the local-search methods preserve it. -/
theorem localSearchRounds_sols_good (cfg : GVNSConfig) (fuel : ℕ) (iterate : Bool)
    (hlsp : ∀ op ∈ cfg.local_search_algorithms, ∀ x, goodSolution x →
      goodSolution (op x).2) :
    ∀ (rounds : ℕ) (cand : Solution) (st : EngineState)
      (sols : List Solution) (st1 : EngineState), goodSolution cand →
      localSearchRounds cfg fuel iterate rounds cand st = .ok (sols, st1) →
      ∀ x ∈ sols, goodSolution x := by
  intro rounds
  induction rounds with
  | zero =>
    intro cand st sols st1 _ h
    cases h
    intro x hx
    cases hx
  | succ rounds ih =>
    intro cand st sols st1 hg h
    unfold localSearchRounds at h
    split_ifs at h with hguard
    · cases h
      intro x hx
      cases hx
    · rcases him : improveLoop cfg iterate fuel cand 0
          { st with evaluation_count := st.evaluation_count + 1 } with ⟨c1, st2⟩ | _ | _
      · simp only [him] at h
        have hg1 := improveLoop_good cfg iterate hlsp fuel cand 0
          { st with evaluation_count := st.evaluation_count + 1 } c1 st2 hg him
        rcases he : Solution.evaluate cfg.inst c1 with _ | c2
        · simp only [he] at h
          cases h
        · simp only [he] at h
          have hg2 := solution_evaluate_good cfg.inst c1 c2 hg1 he
          rcases hrec : localSearchRounds cfg fuel iterate rounds c2 st2 with ⟨sols3, st3⟩ | _ | _
          · simp only [hrec] at h
            cases h
            intro x hx
            rcases List.mem_append.mp hx with hx1 | hx2
            · split_ifs at hx1 with hf
              · have hx3 := List.mem_singleton.mp hx1
                rw [hx3]
                exact hg2
              · cases hx1
            · exact ih c2 st2 _ _ hg2 hrec x hx2
          · simp only [hrec] at h
            cases h
          · simp only [hrec] at h
            cases h
      · simp only [him] at h
        cases h
      · simp only [him] at h
        cases h

/-- perturbation never raises when its input satisfies the nonzero-power
guard and every perturbation method preserves it. -/
theorem perturbationChain_ne_exn (cfg : GVNSConfig) :
    ∀ (ops : List (Solution → Solution)),
      (∀ op ∈ ops, ∀ x, goodSolution x → goodSolution (op x)) →
      ∀ (x : Solution) (st : EngineState), goodSolution x →
        perturbationChain cfg ops x st ≠ RunRes.exn := by
  intro ops
  induction ops with
  | nil =>
    intro _ x st _ hc
    cases hc
  | cons op rest ih =>
    intro hops x st hg hc
    unfold perturbationChain at hc
    rcases he : Solution.evaluate cfg.inst (op x) with _ | z
    · have hgo := hops op (List.mem_cons_self _ _) x hg
      have h2 := solution_evaluate_isSome cfg.inst (op x) hgo
      rw [he] at h2
      cases h2
    · simp only [he] at hc
      have hgz := solution_evaluate_good cfg.inst (op x) z
        (hops op (List.mem_cons_self _ _) x hg) he
      refine ih (fun o ho y hy => hops o (List.mem_cons_of_mem _ ho) y hy) _ _ ?_ hc
      split_ifs with hzf
      · exact hgz
      · exact hg

/-- perturbation's output satisfies the nonzero-power guard when its input
does and every perturbation method preserves it. -/
theorem perturbationChain_out_good (cfg : GVNSConfig) :
    ∀ (ops : List (Solution → Solution)),
      (∀ op ∈ ops, ∀ x, goodSolution x → goodSolution (op x)) →
      ∀ (x : Solution) (st : EngineState) (y : Solution) (st1 : EngineState),
        goodSolution x →
        perturbationChain cfg ops x st = .ok (y, st1) → goodSolution y := by
  intro ops
  induction ops with
  | nil =>
    intro _ x st y st1 hg h
    cases h
    exact hg
  | cons op rest ih =>
    intro hops x st y st1 hg h
    unfold perturbationChain at h
    rcases he : Solution.evaluate cfg.inst (op x) with _ | z
    · simp only [he] at h
      cases h
    · simp only [he] at h
      have hgz := solution_evaluate_good cfg.inst (op x) z
        (hops op (List.mem_cons_self _ _) x hg) he
      refine ih (fun o ho w hw => hops o (List.mem_cons_of_mem _ ho) w hw) _ _ _ _ ?_ h
      split_ifs with hzf
      · exact hgz
      · exact hg

/-- Every solution truly_new_solutions keeps comes from the incoming list of
new solutions. -/
theorem trulyNew_subset :
    ∀ (l : List Solution) (existing : List (ℚ × ℚ)) (s : Solution),
      s ∈ trulyNew existing l → s ∈ l := by
  intro l
  induction l with
  | nil =>
    intro existing s hs
    cases hs
  | cons a rest ih =>
    intro existing s hs
    unfold trulyNew at hs
    split_ifs at hs with h1 h2
    · exact List.mem_cons_of_mem _ (ih existing s hs)
    · rcases List.mem_cons.mp hs with rfl | hs1
      · exact List.mem_cons_self _ _
      · exact List.mem_cons_of_mem _ (ih _ s hs1)
    · exact List.mem_cons_of_mem _ (ih existing s hs)

/-- Every member of the archive returned by update_archive comes from the
previous archive or from the incoming list of new solutions. -/
theorem update_archive_mem (na : ℕ) (archive new_solutions : List Solution)
    (s : Solution) (h : s ∈ ((update_archive na archive new_solutions).1).1) :
    s ∈ archive ∨ s ∈ new_solutions := by
  have hsub := update_archive_fst_subset na archive new_solutions s h
  unfold mergedNonDominated at hsub
  have h1 := (ndLoop_mem _ _ _ s hsub).1
  unfold mergedArchiveExt at h1
  rcases List.mem_append.mp h1 with h2 | h2
  · exact Or.inl h2
  · exact Or.inr (trulyNew_subset new_solutions _ s h2)

/-- The seeding pass of run never raises when the population satisfies the
nonzero-power guard and the local-search methods preserve it. -/
theorem seedArchive_ne_exn (cfg : GVNSConfig) (fuel : ℕ)
    (hlsp : ∀ op ∈ cfg.local_search_algorithms, ∀ x, goodSolution x →
      goodSolution (op x).2) :
    ∀ (pop archive : List Solution) (st : EngineState),
      (∀ x ∈ pop, goodSolution x) →
      seedArchive cfg fuel pop archive st ≠ RunRes.exn := by
  intro pop
  induction pop with
  | nil =>
    intro archive st _ hc
    cases hc
  | cons sol rest ih =>
    intro archive st hpop hc
    unfold seedArchive at hc
    split_ifs at hc with hfeas
    · exact ih archive st (fun y hy => hpop y (List.mem_cons_of_mem _ hy)) hc
    · rcases hlsq : localSearchRounds cfg fuel false cfg.ns sol st with ⟨sols, st2⟩ | _ | _
      · simp only [hlsq] at hc
        split_ifs at hc with hstop
        exact ih _ _ (fun y hy => hpop y (List.mem_cons_of_mem _ hy)) hc
      · simp only [hlsq] at hc
        exact localSearchRounds_ne_exn cfg fuel false hlsp cfg.ns sol st
          (hpop sol (List.mem_cons_self _ _)) hlsq
      · simp only [hlsq] at hc
        cases hc

/-- The archive built by the seeding pass satisfies the nonzero-power guard
memberwise when the population, the starting archive, and the local-search
methods do. -/
theorem seedArchive_archive_good (cfg : GVNSConfig) (fuel : ℕ)
    (hlsp : ∀ op ∈ cfg.local_search_algorithms, ∀ x, goodSolution x →
      goodSolution (op x).2) :
    ∀ (pop archive : List Solution) (st : EngineState)
      (a1 : List Solution) (st1 : EngineState),
      (∀ x ∈ pop, goodSolution x) → (∀ x ∈ archive, goodSolution x) →
      seedArchive cfg fuel pop archive st = .ok (a1, st1) →
      ∀ x ∈ a1, goodSolution x := by
  intro pop
  induction pop with
  | nil =>
    intro archive st a1 st1 _ harch h
    cases h
    exact harch
  | cons sol rest ih =>
    intro archive st a1 st1 hpop harch h
    unfold seedArchive at h
    split_ifs at h with hfeas
    · exact ih archive st a1 st1 (fun y hy => hpop y (List.mem_cons_of_mem _ hy)) harch h
    · rcases hlsq : localSearchRounds cfg fuel false cfg.ns sol st with ⟨sols, st2⟩ | _ | _
      · simp only [hlsq] at h
        have hsols := localSearchRounds_sols_good cfg fuel false hlsp cfg.ns sol st
          sols st2 (hpop sol (List.mem_cons_self _ _)) hlsq
        have harch1 : ∀ z ∈ ((update_archive cfg.na archive sols).1).1, goodSolution z := by
          intro z hz
          rcases update_archive_mem cfg.na archive sols z hz with h4 | h4
          · exact harch z h4
          · exact hsols z h4
        split_ifs at h with hstop
        · cases h
          exact harch1
        · exact ih _ _ _ _ (fun y hy => hpop y (List.mem_cons_of_mem _ hy)) harch1 h
      · simp only [hlsq] at h
        cases h
      · simp only [hlsq] at h
        cases h

/-- The inner retry loop never raises when the drawn solution satisfies the
nonzero-power guard and every operator preserves it. -/
theorem innerLoop_ne_exn (cfg : GVNSConfig) (fuel : ℕ)
    (hlsp : ∀ op ∈ cfg.local_search_algorithms, ∀ x, goodSolution x →
      goodSolution (op x).2)
    (hpert : ∀ op ∈ cfg.pertubation_algorithms, ∀ x, goodSolution x →
      goodSolution (op x))
    (x : Solution) (hx : goodSolution x) :
    ∀ (tries : ℕ) (archive : List Solution) (changed : Bool) (st : EngineState),
      innerLoop cfg fuel x tries archive changed st ≠ RunRes.exn := by
  intro tries
  induction tries with
  | zero =>
    intro archive changed st hc
    cases hc
  | succ tries ih =>
    intro archive changed st hc
    unfold innerLoop at hc
    split_ifs at hc with hstop
    rcases hp : perturbationChain cfg cfg.pertubation_algorithms x st with ⟨x1, st2⟩ | _ | _
    · simp only [hp] at hc
      have hgx1 := perturbationChain_out_good cfg cfg.pertubation_algorithms hpert x st
        x1 st2 hx hp
      rcases hlsq : localSearchRounds cfg fuel true cfg.ns x1 st2 with ⟨sols, st3⟩ | _ | _
      · simp only [hlsq] at hc
        exact ih _ _ _ hc
      · simp only [hlsq] at hc
        exact localSearchRounds_ne_exn cfg fuel true hlsp cfg.ns x1 st2 hgx1 hlsq
      · simp only [hlsq] at hc
        cases hc
    · simp only [hp] at hc
      exact perturbationChain_ne_exn cfg cfg.pertubation_algorithms hpert x st hx hp
    · simp only [hp] at hc
      cases hc

/-- The archive maintained by the inner retry loop satisfies the
nonzero-power guard memberwise. -/
theorem innerLoop_archive_good (cfg : GVNSConfig) (fuel : ℕ)
    (hlsp : ∀ op ∈ cfg.local_search_algorithms, ∀ x, goodSolution x →
      goodSolution (op x).2)
    (hpert : ∀ op ∈ cfg.pertubation_algorithms, ∀ x, goodSolution x →
      goodSolution (op x))
    (x : Solution) (hx : goodSolution x) :
    ∀ (tries : ℕ) (archive : List Solution) (changed : Bool) (st : EngineState)
      (a1 : List Solution) (c1 : Bool) (st1 : EngineState),
      (∀ y ∈ archive, goodSolution y) →
      innerLoop cfg fuel x tries archive changed st = .ok (a1, c1, st1) →
      ∀ y ∈ a1, goodSolution y := by
  intro tries
  induction tries with
  | zero =>
    intro archive changed st a1 c1 st1 harch h
    cases h
    exact harch
  | succ tries ih =>
    intro archive changed st a1 c1 st1 harch h
    unfold innerLoop at h
    split_ifs at h with hstop
    · cases h
      exact harch
    · rcases hp : perturbationChain cfg cfg.pertubation_algorithms x st with ⟨x1, st2⟩ | _ | _
      · simp only [hp] at h
        rcases hlsq : localSearchRounds cfg fuel true cfg.ns x1 st2 with ⟨sols, st3⟩ | _ | _
        · simp only [hlsq] at h
          have hgx1 := perturbationChain_out_good cfg cfg.pertubation_algorithms hpert x st
            x1 st2 hx hp
          have hsols := localSearchRounds_sols_good cfg fuel true hlsp cfg.ns x1 st2
            sols st3 hgx1 hlsq
          refine ih _ _ _ _ _ _ ?_ h
          intro z hz
          rcases update_archive_mem cfg.na archive sols z hz with h4 | h4
          · exact harch z h4
          · exact hsols z h4
        · simp only [hlsq] at h
          cases h
        · simp only [hlsq] at h
          cases h
      · simp only [hp] at h
        cases h
      · simp only [hp] at h
        cases h

/-- random.choice over a nonempty model list: the drawn element of a getD
lookup satisfies the nonzero-power guard whenever every list member and the
fallback do. -/
theorem getD_good :
    ∀ (l : List Solution) (n : ℕ) (d : Solution),
      (∀ x ∈ l, goodSolution x) → goodSolution d → goodSolution (l.getD n d) := by
  intro l
  induction l with
  | nil =>
    intro n d _ hd
    rw [List.getD_nil]
    exact hd
  | cons a t ih =>
    intro n d hl hd
    cases n with
    | zero =>
      rw [List.getD_cons_zero]
      exact hl a (List.mem_cons_self _ _)
    | succ n =>
      rw [List.getD_cons_succ]
      exact ih n d (fun x hx => hl x (List.mem_cons_of_mem _ hx)) hd

/-- The outer loop of run never raises when the archive satisfies the
nonzero-power guard memberwise and every operator preserves the guard. -/
theorem mainLoop_ne_exn (cfg : GVNSConfig) (fuel : ℕ) (rand : ℕ → ℕ)
    (hlsp : ∀ op ∈ cfg.local_search_algorithms, ∀ x, goodSolution x →
      goodSolution (op x).2)
    (hpert : ∀ op ∈ cfg.pertubation_algorithms, ∀ x, goodSolution x →
      goodSolution (op x)) :
    ∀ (f t : ℕ) (archive : List Solution) (st : EngineState),
      (∀ x ∈ archive, goodSolution x) →
      mainLoop cfg fuel rand f t archive st ≠ RunRes.exn := by
  intro f
  induction f with
  | zero =>
    intro t archive st _ hc
    cases hc
  | succ f ih =>
    intro t archive st harch hc
    unfold mainLoop at hc
    dsimp only at hc
    split_ifs at hc with h1 h2 h3
    have hxg : goodSolution ((archive.filter Solution.is_feasible).getD
        (rand t % (archive.filter Solution.is_feasible).length) default) :=
      getD_good (archive.filter Solution.is_feasible) _ default
        (fun y hy => harch y (List.mem_of_mem_filter hy))
        (fun r hr => absurd hr (List.not_mem_nil r))
    rcases hi : innerLoop cfg fuel
        ((archive.filter Solution.is_feasible).getD
          (rand t % (archive.filter Solution.is_feasible).length) default)
        cfg.ls_max_iter archive false st with ⟨a2, c2, st2⟩ | _ | _
    · simp only [hi] at hc
      exact ih (t + 1) a2 st2
        (innerLoop_archive_good cfg fuel hlsp hpert _ hxg cfg.ls_max_iter archive false st
          a2 c2 st2 harch hi) hc
    · simp only [hi] at hc
      exact innerLoop_ne_exn cfg fuel hlsp hpert _ hxg cfg.ls_max_iter archive false st hi
    · simp only [hi] at hc
      cases hc

/-- Engine.run never propagates an exception when the initial population
satisfies the nonzero-power guard and every operator preserves it. -/
theorem run_ne_exn (cfg : GVNSConfig) (fuel : ℕ) (rand : ℕ → ℕ)
    (pop : List Solution)
    (hpop : ∀ x ∈ pop, goodSolution x)
    (hlsp : ∀ op ∈ cfg.local_search_algorithms, ∀ x, goodSolution x →
      goodSolution (op x).2)
    (hpert : ∀ op ∈ cfg.pertubation_algorithms, ∀ x, goodSolution x →
      goodSolution (op x)) :
    GVNS.run cfg fuel rand pop ≠ RunRes.exn := by
  intro hc
  unfold GVNS.run at hc
  rcases hs : seedArchive cfg fuel pop [] ⟨0, 0⟩ with ⟨a1, st1⟩ | _ | _
  · simp only [hs] at hc
    split_ifs at hc with hempty
    exact mainLoop_ne_exn cfg fuel rand hlsp hpert fuel 0 a1 st1
      (seedArchive_archive_good cfg fuel hlsp pop [] ⟨0, 0⟩ a1 st1 hpop
        (fun y hy => absurd hy (List.not_mem_nil y)) hs) hc
  · simp only [hs] at hc
    exact seedArchive_ne_exn cfg fuel hlsp pop [] ⟨0, 0⟩ hpop hs
  · simp only [hs] at hc
    cases hc

/-- C2 amended: provided every charging decision in play uses a technology
with nonzero power — the solution at hand and the initial population satisfy
the guard and every neighborhood operator preserves it, as all parsed
instances and operators do — the core operations do not raise: both route
evaluators and Solution.evaluate return a value, the archive operations are
total functions by construction, and Engine.run never propagates an
exception, so the worst outcome of a completed run is an empty result
list. -/
theorem core_evaluators_total (cfg : GVNSConfig) (fuel : ℕ) (rand : ℕ → ℕ)
    (pop : List Solution) (s : Solution)
    (hp : goodSolution s)
    (hpop : ∀ x ∈ pop, goodSolution x)
    (hlsp : ∀ op ∈ cfg.local_search_algorithms, ∀ x, goodSolution x →
      goodSolution (op x).2)
    (hpert : ∀ op ∈ cfg.pertubation_algorithms, ∀ x, goodSolution x →
      goodSolution (op x)) :
    (Solution.evaluate cfg.inst s).isSome = true ∧
      (∀ r ∈ s.routes, (Route.evaluate r cfg.inst).isSome = true ∧
        (evalRouteSol cfg.inst r).isSome = true) ∧
      GVNS.run cfg fuel rand pop ≠ RunRes.exn := by
  refine ⟨solution_evaluate_isSome cfg.inst s hp, ?_,
    run_ne_exn cfg fuel rand pop hpop hlsp hpert⟩
  intro r hr
  exact ⟨route_evaluate_isSome cfg.inst r (hp r hr),
    evalRouteSol_isSome cfg.inst r (hp r hr)⟩

/-- Witness for the amended C2 theorem: the one-route solution solW uses
only nonzero-power charging technologies, the operator-free configuration
cfgW preserves the guard vacuously, and the run over the population [sol0]
raises no exception. -/
theorem core_evaluators_total_witness :
    goodSolution solW ∧ (∀ x ∈ [sol0], goodSolution x) ∧
      ((Solution.evaluate cfgW.inst solW).isSome = true ∧
        (∀ r ∈ solW.routes, (Route.evaluate r cfgW.inst).isSome = true ∧
          (evalRouteSol cfgW.inst r).isSome = true) ∧
        GVNS.run cfgW 10 (fun _ => 0) [sol0] ≠ RunRes.exn) := by
  refine ⟨by decide, by decide, core_evaluators_total cfgW 10 (fun _ => 0) [sol0] solW
    (by decide) (by decide) ?_ ?_⟩
  · intro op hop
    cases hop
  · intro op hop
    cases hop
